import Mathlib

/-!
OrderBook: time-weighted average of the highest resting price

A shallow embedding of `src/main_order_book.cpp` (class `OrderBook` and the replay
loop of `main`), followed by theorems about it.

Conventions of the embedding:

* `uint64_t` values are natural numbers below `2 ^ 64`; subtraction and addition on them
  are written with an explicit `% 2 ^ 64`.
* `int32_t` identifiers are integers (they are only compared for equality).
* `double` values are exact rationals with one extra element for the quiet NaN:
  `double := Option ℚ`, `none` being `dNaN`.  Arithmetic propagates `none` the way the
  hardware propagates NaN.  Rounding and infinities are not represented in this first
  embedding: it reads prices and the running sum as exact numbers.
* The namespace `Binary64` embeds the same methods a second time with IEEE 754 binary64
  arithmetic (rounding to nearest, overflow to infinity, NaN for invalid operations).  It is
  used where a statement that holds over exact numbers fails for the arithmetic of the
  hardware.
-/

namespace OrderBookModel

/-! ## Data model -/

/-- The record `struct order {int32_t id; double price;}` (line 22), the price being an exact
number. -/
structure order where
  id : Int
  price : ℚ
deriving DecidableEq

/-- The modulus of `uint64_t` arithmetic. -/
def UINT64_SIZE : Nat := 2 ^ 64

/-- A `double`: an exact rational, or `none` for the quiet NaN. -/
abbrev double := Option ℚ

/-- The constant `dNaN` (line 41). -/
def dNaN : double := none

/-- The conversion `double(n)` of an unsigned integer, taken exactly. -/
def double.ofUInt64 (n : Nat) : double := some (n : ℚ)

/-- Addition of doubles; NaN is absorbing. -/
def double.add : double → double → double
  | some x, some y => some (x + y)
  | _, _ => none

/-- Multiplication of doubles; NaN is absorbing. -/
def double.mul : double → double → double
  | some x, some y => some (x * y)
  | _, _ => none

/-- Division of doubles; NaN is absorbing, and a zero divisor yields no exact number. -/
def double.div : double → double → double
  | some x, some y => if y = 0 then none else some (x / y)
  | _, _ => none

/-- Modelled from the spec: the Boost.MultiIndex library behind the typedef `orderbook_data`
(lines 29-37) is not part of the sources.  The container is the set of resting orders under
its two views: `view0`, the `hashed_unique` index on `id`, and `view1`, the
`ordered_non_unique` index on `price` under `std::greater<double>` (descending). -/
structure orderbook_data where
  view0 : List order
  view1 : List order
deriving DecidableEq

/-- Modelled from the spec: `orders.empty()`; the container reports the size of its first
index. -/
def orderbook_data.empty (c : orderbook_data) : Bool := c.view0.isEmpty

/-- Modelled from the spec: lookup by identifier in the hashed view (`find` on index 0). -/
def orderbook_data.find (c : orderbook_data) (order_id : Int) : Option order :=
  c.view0.find? (fun o => o.id == order_id)

/-- Modelled from the spec: position of a new element in the price-ordered view, which is
before the first element of strictly smaller price (after every element that the comparison
`std::greater` does not put behind it). -/
def view1_insert (o : order) : List order → List order
  | [] => [o]
  | x :: xs => if x.price < o.price then o :: x :: xs else x :: view1_insert o xs

/-- Modelled from the spec: `orders.insert(o)`.  The uniqueness constraint of the hashed view
rejects an element whose identifier is resting and the container is left as it was; otherwise
the element enters both views. -/
def orderbook_data.insert (c : orderbook_data) (o : order) : orderbook_data :=
  match c.find o.id with
  | some _ => c
  | none => { view0 := o :: c.view0, view1 := view1_insert o c.view1 }

/-- Modelled from the spec: `orders.erase(order_id)`, erase by key on the hashed view.  The
element found under the key leaves both views; an unknown key changes nothing. -/
def orderbook_data.erase (c : orderbook_data) (order_id : Int) : orderbook_data :=
  match c.find order_id with
  | none => c
  | some o => { view0 := c.view0.erase o, view1 := c.view1.erase o }

/-- The data members of `class OrderBook` (lines 39-45). -/
structure OrderBook where
  orders : orderbook_data
  current_timestamp : Nat
  total_nonempty_time : Nat
  timeweighted_maxprice_sum : double
deriving DecidableEq

/-- A freshly constructed `OrderBook`: empty container and the member initialisers of
lines 43-45. -/
def OrderBook.fresh : OrderBook :=
  { orders := { view0 := [], view1 := [] }
    current_timestamp := 0
    total_nonempty_time := 0
    timeweighted_maxprice_sum := some 0 }

/-! ## Operations -/

/-- Method `get_highest_price` (lines 73-76): the price of the first element of view 1, or
`dNaN` for an empty book. -/
def OrderBook.get_highest_price (s : OrderBook) : double :=
  if !s.orders.empty then
    match s.orders.view1 with
    | o :: _ => some o.price
    | [] => dNaN
  else dNaN

/-- The value of `time_interval` in `update_stats` (line 50): the `uint64_t` difference
`new_timestamp - current_timestamp`, which wraps around. -/
def time_interval (new_timestamp current_timestamp : Nat) : Nat :=
  (new_timestamp + UINT64_SIZE - current_timestamp) % UINT64_SIZE

/-- Method `update_stats` (lines 47-58). -/
def OrderBook.update_stats (s : OrderBook) (new_timestamp : Nat) : OrderBook :=
  let s1 : OrderBook :=
    if !s.orders.empty then
      if time_interval new_timestamp s.current_timestamp > 0 then
        { s with
          total_nonempty_time :=
            (s.total_nonempty_time + time_interval new_timestamp s.current_timestamp)
              % UINT64_SIZE
          timeweighted_maxprice_sum :=
            double.add s.timeweighted_maxprice_sum
              (double.mul (double.ofUInt64 (time_interval new_timestamp s.current_timestamp))
                s.get_highest_price) }
      else s
    else s
  { s1 with current_timestamp := new_timestamp }

/-- Method `insert` (lines 61-65). -/
def OrderBook.insert (s : OrderBook) (time_stamp : Nat) (order_id : Int) (price : ℚ) :
    OrderBook :=
  let s1 := s.update_stats time_stamp
  { s1 with orders := s1.orders.insert { id := order_id, price := price } }

/-- Method `erase` (lines 67-71). -/
def OrderBook.erase (s : OrderBook) (time_stamp : Nat) (order_id : Int) : OrderBook :=
  let s1 := s.update_stats time_stamp
  { s1 with orders := s1.orders.erase order_id }

/-- Method `get_time_average_of_maxprices` (lines 78-80). -/
def OrderBook.get_time_average_of_maxprices (s : OrderBook) : double :=
  if s.total_nonempty_time > 0 then
    double.div s.timeweighted_maxprice_sum (double.ofUInt64 s.total_nonempty_time)
  else dNaN

/-! ## Replay of an event log -/

/-- One line of the event log as `main` dispatches it (lines 101-108): an insert with a
price, or an erase. -/
inductive Event where
  | ins (time_stamp : Nat) (order_id : Int) (price : ℚ)
  | del (time_stamp : Nat) (order_id : Int)
deriving DecidableEq

/-- The timestamp column of an event. -/
def Event.time_stamp : Event → Nat
  | .ins t _ _ => t
  | .del t _ => t

/-- The body of the loop of `main` (lines 101-108): one call on the book. -/
def OrderBook.apply (s : OrderBook) : Event → OrderBook
  | .ins t i p => s.insert t i p
  | .del t i => s.erase t i

/-- The loop of `main` (lines 93-109) over a whole log, on a fresh book. -/
def replay (es : List Event) : OrderBook :=
  es.foldl OrderBook.apply OrderBook.fresh

/-- Every timestamp of the log is a `uint64_t` value. -/
def timestamps_in_range (es : List Event) : Prop :=
  ∀ e ∈ es, e.time_stamp < UINT64_SIZE

/-- The timestamps of the log are non-decreasing. -/
def timestamps_nondecreasing (es : List Event) : Prop :=
  (es.map Event.time_stamp).Pairwise (· ≤ ·)

/-- An identifier is resting at a price when the hashed view holds that element. -/
def OrderBook.resting (s : OrderBook) (order_id : Int) (price : ℚ) : Prop :=
  ({ id := order_id, price := price } : order) ∈ s.orders.view0

/-- An identifier is not resting when no element of the hashed view carries it. -/
def OrderBook.not_resting (s : OrderBook) (order_id : Int) : Prop :=
  ∀ o ∈ s.orders.view0, o.id ≠ order_id

/-- Brute-force linear scan for the largest price of a list of orders; `none` on the empty
list. -/
def scan_max : List order → Option ℚ
  | [] => none
  | o :: os =>
    match scan_max os with
    | none => some o.price
    | some m => some (max o.price m)

/-- Consistency of the container: both views hold the same elements, identifiers are unique
in the hashed view, and the ordered view is descending in price. -/
structure book_inv (c : orderbook_data) : Prop where
  perm : c.view1.Perm c.view0
  nodup : (c.view0.map order.id).Nodup
  sorted : c.view1.Pairwise (fun a b => b.price ≤ a.price)

/-! ## The statistic as the specification words it -/

/-- Timestamp of the event at position `i` of the log (counting from zero). -/
def time_at (es : List Event) (i : Nat) : Nat :=
  (es[i]?.map Event.time_stamp).getD 0

/-- Length of the interval between the events at positions `k` and `k + 1`. -/
def elapsed (es : List Event) (k : Nat) : Nat :=
  time_at es (k + 1) - time_at es k

/-- The orders resting during the interval between the events at positions `k` and `k + 1`:
the resting set after the first `k + 1` events. -/
def resting_after (es : List Event) (k : Nat) : List order :=
  (replay (es.take (k + 1))).orders.view0

/-- Total length of the intervals between consecutive events during which the book is
non-empty. -/
def expected_total_nonempty_time (es : List Event) : Nat :=
  ∑ k ∈ Finset.range (es.length - 1), if resting_after es k ≠ [] then elapsed es k else 0

/-- Sum over the same intervals of their length times the largest resting price, found by a
brute-force scan. -/
def expected_timeweighted_maxprice_sum (es : List Event) : ℚ :=
  ∑ k ∈ Finset.range (es.length - 1),
    match scan_max (resting_after es k) with
    | some m => (elapsed es k : ℚ) * m
    | none => 0

/-- The log that replays each triple `(t, id, p)` as `insert(t, id, p)` immediately followed
by `erase(t, id)`. -/
def pair_events : List (Nat × Int × ℚ) → List Event
  | [] => []
  | (t, i, p) :: ps => .ins t i p :: .del t i :: pair_events ps

/-- An event that leaves a book whose only resting identifier is `order_id` as it is: an
erase of another identifier, or an insert of `order_id` itself (rejected as a duplicate). -/
def keeps_only_order (order_id : Int) : Event → Prop
  | .ins _ j _ => j = order_id
  | .del _ j => j ≠ order_id

/-- The prices passed to the insert calls of a log, in order. -/
def insert_prices : List Event → List ℚ
  | [] => []
  | .ins _ _ p :: es => p :: insert_prices es
  | .del _ _ :: es => insert_prices es

/-! ## Sample logs -/

/-- A log of five events with a repeated timestamp and a rejected duplicate insert. -/
def log_with_duplicate : List Event :=
  [.ins 2 7 3, .ins 2 8 5, .del 6 8, .ins 9 7 100, .del 11 7]

/-- Two orders resting: 1 at price 10 since time 0 and 2 at price 20 since time 5. -/
def log_two_resting : List Event := [.ins 0 1 10, .ins 5 2 20]

/-- One order resting: 1 at price 10 since time 0. -/
def log_one_resting : List Event := [.ins 0 1 10]

/-- The scenario of the specification: insert 1 at 10 (time 0), insert 2 at 20 (time 5),
erase 1 (time 10), erase 2 (time 15). -/
def log_scenario : List Event := [.ins 0 1 10, .ins 5 2 20, .del 10 1, .del 15 2]

/-- A session around a single order: insert 4 at price 7/2 (time 0), an erase of the unknown
identifier 9 (time 30) and a rejected duplicate insert of 4 (time 60) in between. -/
def log_single_order_middle : List Event := [.del 30 9, .ins 60 4 1]

/-- One order resting since time 1: 1 at price 10. -/
def log_late_start : List Event := [.ins 1 1 10]

/-- A book emptied again: insert 1 at price 10 (time 3), erase 1 (time 8). -/
def log_emptied : List Event := [.ins 3 1 10, .del 8 1]

/-! ## The accumulator in IEEE 754 binary64 arithmetic

The definitions above take `double` arithmetic exactly.  The namespace `Binary64` embeds the
same methods with the arithmetic of the hardware: every finite result is rounded to the nearest
binary64 value (ties to even), results of magnitude `2 ^ 1024` or more after rounding become
infinite, and the invalid operations give NaN.  A finite value is represented by the rational
it denotes; the sign of zero is not represented. -/

namespace Binary64

/-- A `double` of the hardware: a finite value, an infinity, or NaN. -/
inductive double where
  | fin (q : ℚ)
  | pinf
  | ninf
  | nan
deriving DecidableEq

/-- Position of the leading binary digit of `n` (zero for `n < 2`), by halving at most `fuel`
times. -/
def ilog2 : Nat → Nat → Nat
  | 0, _ => 0
  | fuel + 1, n => if n < 2 then 0 else ilog2 fuel (n / 2) + 1

/-- The rational `2 ^ k` for an integer exponent. -/
def pow2 (k : Int) : ℚ :=
  if 0 ≤ k then ((2 ^ k.toNat : Nat) : ℚ) else 1 / ((2 ^ (-k).toNat : Nat) : ℚ)

/-- Rounding of a positive rational to binary64: with `e` the binary exponent of `a` (at
least `-1022`, below which the values are subnormal), `a` is rounded to the nearest multiple
of `2 ^ (e - 52)`, a tie going to the even multiple; a result of `2 ^ 1024` or more is
infinite. -/
def round_pos (a : ℚ) : double :=
  let k : Int := (ilog2 a.num.natAbs a.num.natAbs : Int) - (ilog2 a.den a.den : Int)
  let e0 : Int := if pow2 k ≤ a then k else k - 1
  let e : Int := if e0 ≤ -1022 then -1022 else e0
  let q : ℚ := pow2 (e - 52)
  let m : ℚ := a / q
  let fl : Nat := m.num.natAbs / m.den
  let rem : Nat := m.num.natAbs % m.den
  let r : Nat :=
    if 2 * rem < m.den then fl
    else if m.den < 2 * rem then fl + 1
    else if fl % 2 = 0 then fl else fl + 1
  if pow2 1024 ≤ (r : ℚ) * q then .pinf else .fin ((r : ℚ) * q)

/-- Rounding of a rational to binary64, to nearest with ties to even. -/
def round_nearest_even (x : ℚ) : double :=
  if x = 0 then .fin 0
  else if 0 < x then round_pos x
  else
    match round_pos (-x) with
    | .fin r => .fin (-r)
    | _ => .ninf

/-- A rational is a value of type `double` when rounding leaves it as it is. -/
def representable (p : ℚ) : Prop := round_nearest_even p = .fin p

/-- Sign of a value that is not NaN. -/
def double.sign : double → Int
  | .fin q => if 0 < q then 1 else if q < 0 then -1 else 0
  | .pinf => 1
  | .ninf => -1
  | .nan => 0

/-- The infinity of a given sign; NaN for sign zero. -/
def double.inf_of_sign (s : Int) : double :=
  if 0 < s then .pinf else if s < 0 then .ninf else .nan

/-- The conversion `double(n)` of an unsigned integer (rounded above `2 ^ 53`). -/
def double.ofUInt64 (n : Nat) : double := round_nearest_even (n : ℚ)

/-- Addition of doubles: the rounded sum; opposite infinities give NaN. -/
def double.add : double → double → double
  | .nan, _ => .nan
  | _, .nan => .nan
  | .fin a, .fin b => round_nearest_even (a + b)
  | .pinf, .ninf => .nan
  | .ninf, .pinf => .nan
  | .pinf, _ => .pinf
  | .ninf, _ => .ninf
  | .fin _, .pinf => .pinf
  | .fin _, .ninf => .ninf

/-- Multiplication of doubles: the rounded product; an infinity times zero gives NaN. -/
def double.mul : double → double → double
  | .nan, _ => .nan
  | _, .nan => .nan
  | .fin a, .fin b => round_nearest_even (a * b)
  | x, y => double.inf_of_sign (x.sign * y.sign)

/-- Division of doubles: the rounded quotient; zero by zero and infinity by infinity give NaN,
a non-zero value by zero gives an infinity (the zero taken as positive). -/
def double.div : double → double → double
  | .nan, _ => .nan
  | _, .nan => .nan
  | .fin a, .fin b =>
    if b = 0 then double.inf_of_sign (double.sign (.fin a)) else round_nearest_even (a / b)
  | .fin _, _ => .fin 0
  | x, .fin b => double.inf_of_sign (x.sign * (if b < 0 then -1 else 1))
  | _, _ => .nan

/-- The data members of `class OrderBook` (lines 39-45), the sum being a hardware double. -/
structure OrderBook where
  orders : orderbook_data
  current_timestamp : Nat
  total_nonempty_time : Nat
  timeweighted_maxprice_sum : double
deriving DecidableEq

/-- A freshly constructed `OrderBook` (lines 43-45). -/
def OrderBook.fresh : OrderBook :=
  { orders := { view0 := [], view1 := [] }
    current_timestamp := 0
    total_nonempty_time := 0
    timeweighted_maxprice_sum := .fin 0 }

/-- Method `get_highest_price` (lines 73-76). -/
def OrderBook.get_highest_price (s : OrderBook) : double :=
  if !s.orders.empty then
    match s.orders.view1 with
    | o :: _ => .fin o.price
    | [] => .nan
  else .nan

/-- Method `update_stats` (lines 47-58). -/
def OrderBook.update_stats (s : OrderBook) (new_timestamp : Nat) : OrderBook :=
  let s1 : OrderBook :=
    if !s.orders.empty then
      if time_interval new_timestamp s.current_timestamp > 0 then
        { s with
          total_nonempty_time :=
            (s.total_nonempty_time + time_interval new_timestamp s.current_timestamp)
              % UINT64_SIZE
          timeweighted_maxprice_sum :=
            double.add s.timeweighted_maxprice_sum
              (double.mul (double.ofUInt64 (time_interval new_timestamp s.current_timestamp))
                s.get_highest_price) }
      else s
    else s
  { s1 with current_timestamp := new_timestamp }

/-- Method `insert` (lines 61-65). -/
def OrderBook.insert (s : OrderBook) (time_stamp : Nat) (order_id : Int) (price : ℚ) :
    OrderBook :=
  let s1 := s.update_stats time_stamp
  { s1 with orders := s1.orders.insert { id := order_id, price := price } }

/-- Method `erase` (lines 67-71). -/
def OrderBook.erase (s : OrderBook) (time_stamp : Nat) (order_id : Int) : OrderBook :=
  let s1 := s.update_stats time_stamp
  { s1 with orders := s1.orders.erase order_id }

/-- Method `get_time_average_of_maxprices` (lines 78-80). -/
def OrderBook.get_time_average_of_maxprices (s : OrderBook) : double :=
  if s.total_nonempty_time > 0 then
    double.div s.timeweighted_maxprice_sum (double.ofUInt64 s.total_nonempty_time)
  else .nan

/-- The body of the loop of `main` (lines 101-108). -/
def OrderBook.apply (s : OrderBook) : Event → OrderBook
  | .ins t i p => s.insert t i p
  | .del t i => s.erase t i

/-- The loop of `main` (lines 93-109) over a whole log, on a fresh book. -/
def replay (es : List Event) : OrderBook :=
  es.foldl OrderBook.apply OrderBook.fresh

end Binary64

/-- The double nearest to the decimal 0.007. -/
def price_0007 : ℚ := 8070450532247929 / 1152921504606846976

/-- A single order at the double nearest to 0.007, inserted at time 0, and an erase of the
unknown identifier 2 at time 100. -/
def log_single_0007 : List Event := [.ins 0 1 price_0007, .del 100 2]

theorem find_eq_none_iff (c : orderbook_data) (i : Int) :
    c.find i = none ↔ ∀ o ∈ c.view0, o.id ≠ i := by
  simp [orderbook_data.find]

theorem find_eq_some (c : orderbook_data) (i : Int) (o : order) (h : c.find i = some o) :
    o ∈ c.view0 ∧ o.id = i := by
  unfold orderbook_data.find at h
  have h1 := List.find?_some h
  have h2 := List.mem_of_find?_eq_some h
  exact ⟨h2, by simpa using h1⟩

theorem view1_insert_perm (o : order) (l : List order) : (view1_insert o l).Perm (o :: l) := by
  induction l with
  | nil => simp [view1_insert]
  | cons x xs ih =>
    unfold view1_insert
    split
    · exact List.Perm.refl _
    · exact (List.Perm.cons x ih).trans (List.Perm.swap o x xs)

theorem view1_insert_sorted (o : order) (l : List order)
    (h : l.Pairwise (fun a b => b.price ≤ a.price)) :
    (view1_insert o l).Pairwise (fun a b => b.price ≤ a.price) := by
  induction l with
  | nil => simp [view1_insert]
  | cons x xs ih =>
    rw [List.pairwise_cons] at h
    unfold view1_insert
    split
    · rename_i hlt
      refine List.pairwise_cons.2 ⟨?_, List.pairwise_cons.2 h⟩
      intro b hb
      rcases List.mem_cons.1 hb with rfl | hb
      · exact le_of_lt hlt
      · exact le_trans (h.1 b hb) (le_of_lt hlt)
    · rename_i hnlt
      refine List.pairwise_cons.2 ⟨?_, ih h.2⟩
      intro b hb
      rcases List.mem_cons.1 ((view1_insert_perm o xs).subset hb) with rfl | hb
      · exact not_lt.1 hnlt
      · exact h.1 b hb

theorem book_inv_empty : book_inv { view0 := [], view1 := [] } :=
  ⟨List.Perm.refl _, by simp, by simp⟩

theorem book_inv_insert (c : orderbook_data) (o : order) (h : book_inv c) :
    book_inv (c.insert o) := by
  unfold orderbook_data.insert
  split
  · exact h
  · rename_i hnone
    have hfresh := (find_eq_none_iff c o.id).1 hnone
    refine ⟨?_, ?_, ?_⟩
    · exact (view1_insert_perm o c.view1).trans (List.Perm.cons o h.perm)
    · simp only [List.map_cons, List.nodup_cons]
      refine ⟨?_, h.nodup⟩
      intro hmem
      rcases List.mem_map.1 hmem with ⟨x, hx, hxo⟩
      exact hfresh x hx hxo
    · exact view1_insert_sorted o c.view1 h.sorted

theorem book_inv_erase (c : orderbook_data) (i : Int) (h : book_inv c) :
    book_inv (c.erase i) := by
  unfold orderbook_data.erase
  split
  · exact h
  · rename_i o _
    refine ⟨?_, ?_, ?_⟩
    · exact List.Perm.erase o h.perm
    · exact List.Nodup.sublist (List.Sublist.map _ (List.erase_sublist o c.view0)) h.nodup
    · exact List.Pairwise.sublist (List.erase_sublist o c.view1) h.sorted

theorem update_stats_orders (s : OrderBook) (t : Nat) : (s.update_stats t).orders = s.orders := by
  unfold OrderBook.update_stats
  split <;> try split
  all_goals rfl

theorem book_inv_apply (s : OrderBook) (e : Event) (h : book_inv s.orders) :
    book_inv (s.apply e).orders := by
  cases e with
  | ins t i p =>
    simp only [OrderBook.apply, OrderBook.insert, update_stats_orders]
    exact book_inv_insert _ _ h
  | del t i =>
    simp only [OrderBook.apply, OrderBook.erase, update_stats_orders]
    exact book_inv_erase _ _ h

theorem replay_snoc (es : List Event) (e : Event) :
    replay (es ++ [e]) = (replay es).apply e := by
  simp [replay, List.foldl_append]

theorem book_inv_replay (es : List Event) : book_inv (replay es).orders := by
  induction es using List.reverseRecOn with
  | nil => exact book_inv_empty
  | append_singleton es e ih =>
    rw [replay_snoc]
    exact book_inv_apply _ _ ih

/-! ## The highest price -/

theorem scan_max_eq_none_iff (l : List order) : scan_max l = none ↔ l = [] := by
  cases l with
  | nil => simp [scan_max]
  | cons x xs =>
    simp only [scan_max]
    split <;> simp

theorem scan_max_spec (l : List order) (m : ℚ) (h : scan_max l = some m) :
    (∃ o ∈ l, o.price = m) ∧ ∀ o ∈ l, o.price ≤ m := by
  induction l generalizing m with
  | nil => simp [scan_max] at h
  | cons x xs ih =>
    simp only [scan_max] at h
    split at h
    · rename_i hnone
      have hxs := (scan_max_eq_none_iff xs).1 hnone
      subst hxs
      simp only [Option.some.injEq] at h
      subst h
      simp
    · rename_i m0 hsome
      simp only [Option.some.injEq] at h
      subst h
      obtain ⟨⟨o, ho, hom⟩, hle⟩ := ih m0 hsome
      constructor
      · rcases le_total x.price m0 with hx | hx
        · exact ⟨o, List.mem_cons_of_mem _ ho, by rw [hom, max_eq_right hx]⟩
        · exact ⟨x, List.mem_cons_self _ _, by rw [max_eq_left hx]⟩
      · intro o' ho'
        rcases List.mem_cons.1 ho' with rfl | ho'
        · exact le_max_left _ _
        · exact le_trans (hle o' ho') (le_max_right _ _)

theorem scan_max_unique (l : List order) (m : ℚ) (hne : l ≠ [])
    (hmem : ∃ o ∈ l, o.price = m) (hle : ∀ o ∈ l, o.price ≤ m) : scan_max l = some m := by
  cases hs : scan_max l with
  | none => exact absurd ((scan_max_eq_none_iff l).1 hs) hne
  | some m0 =>
    obtain ⟨⟨o, ho, hom⟩, hle0⟩ := scan_max_spec l m0 hs
    obtain ⟨o1, ho1, hom1⟩ := hmem
    have h1 : m0 ≤ m := hom ▸ hle o ho
    have h2 : m ≤ m0 := hom1 ▸ hle0 o1 ho1
    rw [le_antisymm h1 h2]

theorem get_highest_price_eq_scan (s : OrderBook) (h : book_inv s.orders) :
    s.get_highest_price = scan_max s.orders.view0 := by
  unfold OrderBook.get_highest_price orderbook_data.empty
  cases h0 : s.orders.view0 with
  | nil => simp [scan_max, dNaN]
  | cons y ys =>
    have hperm := h.perm
    cases h1 : s.orders.view1 with
    | nil =>
      rw [h0, h1] at hperm
      exact absurd hperm.symm (List.cons_ne_nil _ _ ∘ List.Perm.eq_nil)
    | cons x xs =>
      have hsorted := h.sorted
      rw [h1] at hsorted hperm
      rw [h0] at hperm
      simp only [List.isEmpty_cons, Bool.not_false, if_true]
      symm
      apply scan_max_unique _ _ (List.cons_ne_nil _ _)
      · exact ⟨x, hperm.subset (List.mem_cons_self _ _), rfl⟩
      · intro o ho
        rcases List.mem_cons.1 (hperm.symm.subset ho) with rfl | ho
        · exact le_refl _
        · exact (List.pairwise_cons.1 hsorted).1 o ho

/-- C1: after any sequence of insert and erase calls on a fresh book, get_highest_price is the
result of a brute-force scan for the largest price among the resting orders (it is the price
of a resting order and no resting order has a larger one), and it is the no-value sentinel
exactly when no order is resting. -/
theorem get_highest_price_is_max (es : List Event) :
    (replay es).get_highest_price = scan_max (replay es).orders.view0 ∧
    ((replay es).get_highest_price = dNaN ↔ (replay es).orders.view0 = []) ∧
    (∀ m, (replay es).get_highest_price = some m →
      (∃ o ∈ (replay es).orders.view0, o.price = m) ∧
        ∀ o ∈ (replay es).orders.view0, o.price ≤ m) := by
  have h := get_highest_price_eq_scan (replay es) (book_inv_replay es)
  refine ⟨h, ?_, ?_⟩
  · rw [h]
    exact scan_max_eq_none_iff _
  · intro m hm
    rw [h] at hm
    exact scan_max_spec _ m hm

/-! ## The accumulator -/

theorem time_interval_of_le (t c : Nat) (h1 : c ≤ t) (h2 : t < UINT64_SIZE) :
    time_interval t c = t - c := by
  unfold time_interval
  have h : t + UINT64_SIZE - c = (t - c) + UINT64_SIZE := by omega
  rw [h, Nat.add_mod_right, Nat.mod_eq_of_lt (by omega)]

theorem time_interval_self (t : Nat) : time_interval t t = 0 := by
  unfold time_interval
  rw [Nat.add_sub_cancel_left, Nat.mod_self]

theorem update_stats_current_timestamp (s : OrderBook) (t : Nat) :
    (s.update_stats t).current_timestamp = t := rfl

theorem update_stats_empty (s : OrderBook) (t : Nat) (h : s.orders.view0 = []) :
    s.update_stats t = { s with current_timestamp := t } := by
  simp [OrderBook.update_stats, orderbook_data.empty, h]

theorem update_stats_zero (s : OrderBook) (t : Nat) (h : time_interval t s.current_timestamp = 0) :
    s.update_stats t = { s with current_timestamp := t } := by
  simp [OrderBook.update_stats, h]

theorem update_stats_accrue (s : OrderBook) (t : Nat) (h : s.orders.view0 ≠ [])
    (hpos : 0 < time_interval t s.current_timestamp) :
    s.update_stats t =
      { s with
        current_timestamp := t
        total_nonempty_time :=
          (s.total_nonempty_time + time_interval t s.current_timestamp) % UINT64_SIZE
        timeweighted_maxprice_sum :=
          double.add s.timeweighted_maxprice_sum
            (double.mul (double.ofUInt64 (time_interval t s.current_timestamp))
              s.get_highest_price) } := by
  simp [OrderBook.update_stats, orderbook_data.empty, h, hpos]

theorem apply_update_stats (s : OrderBook) (e : Event) :
    (s.apply e).current_timestamp = e.time_stamp ∧
    (s.apply e).total_nonempty_time = (s.update_stats e.time_stamp).total_nonempty_time ∧
    (s.apply e).timeweighted_maxprice_sum =
      (s.update_stats e.time_stamp).timeweighted_maxprice_sum := by
  cases e <;> exact ⟨rfl, rfl, rfl⟩

theorem update_stats_total (s : OrderBook) (t : Nat) (hle : s.current_timestamp ≤ t)
    (ht : t < UINT64_SIZE) (htot : s.total_nonempty_time ≤ s.current_timestamp) :
    (s.update_stats t).total_nonempty_time =
      s.total_nonempty_time + (if s.orders.view0 ≠ [] then t - s.current_timestamp else 0) := by
  have hti := time_interval_of_le t s.current_timestamp hle ht
  by_cases h : s.orders.view0 = []
  · rw [update_stats_empty s t h]
    simp [h]
  · by_cases hz : t - s.current_timestamp = 0
    · rw [update_stats_zero s t (by rw [hti, hz])]
      simp [hz]
    · rw [update_stats_accrue s t h (by rw [hti]; omega)]
      simp only [hti, ne_eq, h, not_false_eq_true, if_true]
      exact Nat.mod_eq_of_lt (by omega)

theorem update_stats_sum (s : OrderBook) (t : Nat) (hle : s.current_timestamp ≤ t)
    (ht : t < UINT64_SIZE) (hinv : book_inv s.orders) (a : ℚ)
    (ha : s.timeweighted_maxprice_sum = some a) :
    (s.update_stats t).timeweighted_maxprice_sum =
      some (a + match scan_max s.orders.view0 with
        | some m => ((t - s.current_timestamp : Nat) : ℚ) * m
        | none => 0) := by
  have hti := time_interval_of_le t s.current_timestamp hle ht
  have hmax := get_highest_price_eq_scan s hinv
  by_cases h : s.orders.view0 = []
  · rw [update_stats_empty s t h]
    simp [h, scan_max, ha]
  · cases hm : scan_max s.orders.view0 with
    | none => exact absurd ((scan_max_eq_none_iff _).1 hm) h
    | some m =>
      by_cases hz : t - s.current_timestamp = 0
      · rw [update_stats_zero s t (by rw [hti, hz])]
        simp [hz, ha]
      · rw [update_stats_accrue s t h (by rw [hti]; omega)]
        simp only [hti, hmax, hm, ha, double.ofUInt64, double.mul, double.add]

theorem replay_nil : replay [] = OrderBook.fresh := rfl

theorem current_timestamp_replay (es : List Event) :
    (replay es).current_timestamp = if es = [] then 0 else time_at es (es.length - 1) := by
  induction es using List.reverseRecOn with
  | nil => rfl
  | append_singleton es e _ =>
    rw [replay_snoc, (apply_update_stats _ e).1]
    simp [time_at]

theorem current_timestamp_replay_le (es : List Event) (b : Nat)
    (h : ∀ x ∈ es, x.time_stamp ≤ b) : (replay es).current_timestamp ≤ b := by
  induction es using List.reverseRecOn with
  | nil => exact Nat.zero_le _
  | append_singleton es e _ =>
    rw [replay_snoc, (apply_update_stats _ e).1]
    exact h e (by simp)

theorem time_at_append_lt (es : List Event) (e : Event) (i : Nat) (h : i < es.length) :
    time_at (es ++ [e]) i = time_at es i := by
  simp [time_at, List.getElem?_append_left h]

theorem time_at_append_length (es : List Event) (e : Event) :
    time_at (es ++ [e]) es.length = e.time_stamp := by
  simp [time_at]

theorem resting_after_append (es : List Event) (e : Event) (k : Nat) (h : k + 1 ≤ es.length) :
    resting_after (es ++ [e]) k = resting_after es k := by
  simp [resting_after, List.take_append_of_le_length h]

theorem elapsed_append (es : List Event) (e : Event) (k : Nat) (h : k + 1 < es.length) :
    elapsed (es ++ [e]) k = elapsed es k := by
  simp [elapsed, time_at_append_lt es e (k + 1) h, time_at_append_lt es e k (by omega)]

theorem resting_after_last (es : List Event) (e : Event) (h : es ≠ []) :
    resting_after (es ++ [e]) (es.length - 1) = (replay es).orders.view0 := by
  have hl : 0 < es.length := List.length_pos.2 h
  simp [resting_after, Nat.sub_add_cancel hl]

theorem elapsed_last (es : List Event) (e : Event) (h : es ≠ []) :
    elapsed (es ++ [e]) (es.length - 1) = e.time_stamp - (replay es).current_timestamp := by
  have hl : 0 < es.length := List.length_pos.2 h
  rw [current_timestamp_replay, if_neg h]
  unfold elapsed
  rw [Nat.sub_add_cancel hl, time_at_append_length, time_at_append_lt es e _ (by omega)]

theorem expected_total_snoc (es : List Event) (e : Event) (h : es ≠ []) :
    expected_total_nonempty_time (es ++ [e]) =
      expected_total_nonempty_time es +
        (if (replay es).orders.view0 ≠ [] then e.time_stamp - (replay es).current_timestamp
          else 0) := by
  have hl : 0 < es.length := List.length_pos.2 h
  unfold expected_total_nonempty_time
  have hlen : (es ++ [e]).length - 1 = (es.length - 1) + 1 := by simp; omega
  rw [hlen, Finset.sum_range_succ, resting_after_last es e h, elapsed_last es e h]
  congr 1
  apply Finset.sum_congr rfl
  intro k hk
  have hk1 : k + 1 < es.length := by have := Finset.mem_range.1 hk; omega
  rw [resting_after_append es e k (by omega), elapsed_append es e k hk1]

theorem expected_sum_snoc (es : List Event) (e : Event) (h : es ≠ []) :
    expected_timeweighted_maxprice_sum (es ++ [e]) =
      expected_timeweighted_maxprice_sum es +
        (match scan_max (replay es).orders.view0 with
          | some m => ((e.time_stamp - (replay es).current_timestamp : Nat) : ℚ) * m
          | none => 0) := by
  have hl : 0 < es.length := List.length_pos.2 h
  unfold expected_timeweighted_maxprice_sum
  have hlen : (es ++ [e]).length - 1 = (es.length - 1) + 1 := by simp; omega
  rw [hlen, Finset.sum_range_succ, resting_after_last es e h, elapsed_last es e h]
  congr 1
  apply Finset.sum_congr rfl
  intro k hk
  have hk1 : k + 1 < es.length := by have := Finset.mem_range.1 hk; omega
  rw [resting_after_append es e k (by omega), elapsed_append es e k hk1]

theorem timestamps_in_range_snoc (es : List Event) (e : Event)
    (h : timestamps_in_range (es ++ [e])) :
    timestamps_in_range es ∧ e.time_stamp < UINT64_SIZE :=
  ⟨fun x hx => h x (List.mem_append_left _ hx), h e (by simp)⟩

theorem timestamps_nondecreasing_snoc (es : List Event) (e : Event)
    (h : timestamps_nondecreasing (es ++ [e])) :
    timestamps_nondecreasing es ∧ ∀ x ∈ es, x.time_stamp ≤ e.time_stamp := by
  unfold timestamps_nondecreasing at h ⊢
  rw [List.map_append, List.pairwise_append] at h
  refine ⟨h.1, fun x hx => ?_⟩
  exact h.2.2 _ (List.mem_map_of_mem _ hx) _ (by simp)

/-- On a log with non-decreasing `uint64_t` timestamps the two accumulators hold the sums of
the specification, and the non-empty time never exceeds the last timestamp. -/
theorem stats_replay (es : List Event) (hr : timestamps_in_range es)
    (hs : timestamps_nondecreasing es) :
    (replay es).total_nonempty_time = expected_total_nonempty_time es ∧
    (replay es).timeweighted_maxprice_sum = some (expected_timeweighted_maxprice_sum es) ∧
    (replay es).total_nonempty_time ≤ (replay es).current_timestamp ∧
    (replay es).current_timestamp < UINT64_SIZE := by
  induction es using List.reverseRecOn with
  | nil =>
    refine ⟨rfl, ?_, Nat.le_refl _, ?_⟩
    · simp [replay_nil, OrderBook.fresh, expected_timeweighted_maxprice_sum]
    · simp [replay_nil, OrderBook.fresh, UINT64_SIZE]
  | append_singleton es e ih =>
    obtain ⟨hr1, hte⟩ := timestamps_in_range_snoc es e hr
    obtain ⟨hs1, hle⟩ := timestamps_nondecreasing_snoc es e hs
    obtain ⟨htot, hsum, hbound, _⟩ := ih hr1 hs1
    have hcur := current_timestamp_replay_le es e.time_stamp hle
    have hT := update_stats_total (replay es) e.time_stamp hcur hte hbound
    have hS := update_stats_sum (replay es) e.time_stamp hcur hte (book_inv_replay es) _ hsum
    obtain ⟨hc, ht, hsm⟩ := apply_update_stats (replay es) e
    rw [replay_snoc, hc, ht, hsm, hT, hS]
    by_cases hnil : es = []
    · subst hnil
      refine ⟨?_, ?_, ?_, hte⟩
      · simp [replay_nil, OrderBook.fresh, expected_total_nonempty_time]
      · simp [replay_nil, OrderBook.fresh, expected_timeweighted_maxprice_sum, scan_max]
      · simp [replay_nil, OrderBook.fresh]
    · refine ⟨?_, ?_, ?_, hte⟩
      · rw [expected_total_snoc es e hnil, htot]
      · rw [expected_sum_snoc es e hnil]
      · split <;> omega

/-- C2: on a log with non-decreasing timestamps, total_nonempty_time is the sum of the lengths
of the intervals between consecutive events during which the book is non-empty,
timeweighted_maxprice_sum is the sum over the same intervals of length times largest resting
price, and get_time_average_of_maxprices returns the quotient of the two whenever
total_nonempty_time is positive. -/
theorem stats_match_interval_sums (es : List Event) (hr : timestamps_in_range es)
    (hs : timestamps_nondecreasing es) :
    (replay es).total_nonempty_time = expected_total_nonempty_time es ∧
    (replay es).timeweighted_maxprice_sum = some (expected_timeweighted_maxprice_sum es) ∧
    (0 < (replay es).total_nonempty_time →
      (replay es).get_time_average_of_maxprices =
        some (expected_timeweighted_maxprice_sum es / (expected_total_nonempty_time es : ℚ))) := by
  obtain ⟨htot, hsum, _, _⟩ := stats_replay es hr hs
  refine ⟨htot, hsum, fun hpos => ?_⟩
  unfold OrderBook.get_time_average_of_maxprices
  rw [if_pos hpos, hsum, htot]
  rw [htot] at hpos
  have hne : (expected_total_nonempty_time es : ℚ) ≠ 0 := by exact_mod_cast hpos.ne'
  simp [double.div, double.ofUInt64, hne]

/-- Witness of C2 on a log of five events with a repeated timestamp and a rejected
duplicate. -/
theorem stats_match_interval_sums_witness :
    timestamps_in_range log_with_duplicate ∧ timestamps_nondecreasing log_with_duplicate ∧
    (replay log_with_duplicate).total_nonempty_time =
      expected_total_nonempty_time log_with_duplicate ∧
    (replay log_with_duplicate).timeweighted_maxprice_sum =
      some (expected_timeweighted_maxprice_sum log_with_duplicate) ∧
    (0 < (replay log_with_duplicate).total_nonempty_time →
      (replay log_with_duplicate).get_time_average_of_maxprices =
        some (expected_timeweighted_maxprice_sum log_with_duplicate /
          (expected_total_nonempty_time log_with_duplicate : ℚ))) :=
  ⟨by unfold timestamps_in_range; decide, by unfold timestamps_nondecreasing; decide,
    stats_match_interval_sums log_with_duplicate (by unfold timestamps_in_range; decide)
      (by unfold timestamps_nondecreasing; decide)⟩

theorem sum_replay_isSome (es : List Event) :
    ∃ a, (replay es).timeweighted_maxprice_sum = some a := by
  induction es using List.reverseRecOn with
  | nil => exact ⟨0, rfl⟩
  | append_singleton es e ih =>
    obtain ⟨a, ha⟩ := ih
    rw [replay_snoc, (apply_update_stats _ e).2.2]
    by_cases h : (replay es).orders.view0 = []
    · rw [update_stats_empty _ _ h]
      exact ⟨a, ha⟩
    · by_cases hz : time_interval e.time_stamp (replay es).current_timestamp = 0
      · rw [update_stats_zero _ _ hz]
        exact ⟨a, ha⟩
      · rw [update_stats_accrue _ _ h (Nat.pos_of_ne_zero hz)]
        cases hm : scan_max (replay es).orders.view0 with
        | none => exact absurd ((scan_max_eq_none_iff _).1 hm) h
        | some m =>
          simp only [get_highest_price_eq_scan _ (book_inv_replay es), hm, ha,
            double.ofUInt64, double.mul, double.add]
          exact ⟨_, rfl⟩

/-- C3: in a state with a non-empty book, largest resting price m and last timestamp t0
(reached by any log of uint64_t timestamps), an insert or erase at t1 > t0 adds t1 - t0 to
total_nonempty_time (the uint64_t addition, which is exact addition whenever the log so far
had non-decreasing timestamps) and adds (t1 - t0) * m to timeweighted_maxprice_sum, m being
the largest price before the mutation whatever the event inserts or erases. -/
theorem interval_weighted_by_prior_max (es : List Event) (e : Event)
    (hr : timestamps_in_range es) (ht : e.time_stamp < UINT64_SIZE)
    (hne : (replay es).orders.view0 ≠ [])
    (hlt : (replay es).current_timestamp < e.time_stamp) :
    ∃ m a, (replay es).get_highest_price = some m ∧
      scan_max (replay es).orders.view0 = some m ∧
      (replay es).timeweighted_maxprice_sum = some a ∧
      ((replay es).apply e).timeweighted_maxprice_sum =
        some (a + ((e.time_stamp - (replay es).current_timestamp : Nat) : ℚ) * m) ∧
      ((replay es).apply e).total_nonempty_time =
        ((replay es).total_nonempty_time + (e.time_stamp - (replay es).current_timestamp))
          % UINT64_SIZE ∧
      (timestamps_nondecreasing es →
        ((replay es).apply e).total_nonempty_time =
          (replay es).total_nonempty_time + (e.time_stamp - (replay es).current_timestamp)) := by
  obtain ⟨a, ha⟩ := sum_replay_isSome es
  have hmax := get_highest_price_eq_scan _ (book_inv_replay es)
  have hti := time_interval_of_le e.time_stamp _ (Nat.le_of_lt hlt) ht
  obtain ⟨_, htot, hsum⟩ := apply_update_stats (replay es) e
  have hacc := update_stats_accrue (replay es) e.time_stamp hne (by rw [hti]; omega)
  cases hm : scan_max (replay es).orders.view0 with
  | none => exact absurd ((scan_max_eq_none_iff _).1 hm) hne
  | some m =>
    refine ⟨m, a, by rw [hmax, hm], rfl, ha, ?_, ?_, ?_⟩
    · rw [hsum, hacc]
      simp only [hti, hmax, hm, ha, double.ofUInt64, double.mul, double.add]
    · rw [htot, hacc]
      simp only [hti]
    · intro hs
      have hb := (stats_replay es hr hs).2.2.1
      rw [htot, hacc]
      simp only [hti]
      exact Nat.mod_eq_of_lt (by omega)

/-- Witness of C3: with orders 1 at 10 and 2 at 20 resting since times 0 and 5, erasing the
highest-priced order 2 at time 10 still weights the interval from 5 to 10 by a price m that
is the highest price before the erase. -/
theorem interval_weighted_by_prior_max_witness :
    timestamps_in_range log_two_resting ∧ (Event.del 10 2).time_stamp < UINT64_SIZE ∧
    (replay log_two_resting).orders.view0 ≠ [] ∧
    (replay log_two_resting).current_timestamp < (Event.del 10 2).time_stamp ∧
    ∃ m a, (replay log_two_resting).get_highest_price = some m ∧
      scan_max (replay log_two_resting).orders.view0 = some m ∧
      (replay log_two_resting).timeweighted_maxprice_sum = some a ∧
      ((replay log_two_resting).apply (.del 10 2)).timeweighted_maxprice_sum =
        some (a + (((Event.del 10 2).time_stamp -
          (replay log_two_resting).current_timestamp : Nat) : ℚ) * m) ∧
      ((replay log_two_resting).apply (.del 10 2)).total_nonempty_time =
        ((replay log_two_resting).total_nonempty_time +
          ((Event.del 10 2).time_stamp - (replay log_two_resting).current_timestamp))
          % UINT64_SIZE ∧
      (timestamps_nondecreasing log_two_resting →
        ((replay log_two_resting).apply (.del 10 2)).total_nonempty_time =
          (replay log_two_resting).total_nonempty_time +
            ((Event.del 10 2).time_stamp - (replay log_two_resting).current_timestamp)) :=
  ⟨by unfold timestamps_in_range; decide, by decide, by decide, by decide,
    interval_weighted_by_prior_max log_two_resting (.del 10 2)
      (by unfold timestamps_in_range; decide) (by decide) (by decide) (by decide)⟩

/-! ## Calls that leave the book as it is -/

theorem insert_orders (s : OrderBook) (t : Nat) (i : Int) (p : ℚ) :
    (s.insert t i p).orders = s.orders.insert { id := i, price := p } := by
  simp [OrderBook.insert, update_stats_orders]

theorem erase_orders (s : OrderBook) (t : Nat) (i : Int) :
    (s.erase t i).orders = s.orders.erase i := by
  simp [OrderBook.erase, update_stats_orders]

theorem get_highest_price_congr (s s1 : OrderBook) (h : s1.orders = s.orders) :
    s1.get_highest_price = s.get_highest_price := by
  unfold OrderBook.get_highest_price
  rw [h]

theorem find_ne_none_of_mem (c : orderbook_data) (o : order) (h : o ∈ c.view0) :
    c.find o.id ≠ none := by
  intro hn
  exact (find_eq_none_iff c o.id).1 hn o h rfl

theorem container_insert_resting (c : orderbook_data) (o : order) (q : ℚ) (h : o ∈ c.view0) :
    c.insert { id := o.id, price := q } = c := by
  unfold orderbook_data.insert
  split
  · rfl
  · rename_i hn
    exact absurd hn (find_ne_none_of_mem c o h)

theorem container_erase_unknown (c : orderbook_data) (i : Int)
    (h : ∀ o ∈ c.view0, o.id ≠ i) : c.erase i = c := by
  unfold orderbook_data.erase
  rw [(find_eq_none_iff c i).2 h]

/-- C4: when identifier id is resting at price p, insert(time_stamp, id, q) leaves both views
of the book as they were for every timestamp and every price q: id still rests at p, it does
not rest at any other price q, and get_highest_price is unchanged. -/
theorem duplicate_insert_keeps_book (es : List Event) (t : Nat) (i : Int) (p q : ℚ)
    (h : (replay es).resting i p) :
    ((replay es).insert t i q).orders = (replay es).orders ∧
    ((replay es).insert t i q).resting i p ∧
    (q ≠ p → ¬ ((replay es).insert t i q).resting i q) ∧
    ((replay es).insert t i q).get_highest_price = (replay es).get_highest_price := by
  have ho : ((replay es).insert t i q).orders = (replay es).orders := by
    rw [insert_orders]
    exact container_insert_resting _ { id := i, price := p } q h
  refine ⟨ho, ?_, ?_, get_highest_price_congr _ _ ho⟩
  · unfold OrderBook.resting
    rw [ho]
    exact h
  · intro hqp hq
    unfold OrderBook.resting at hq h
    rw [ho] at hq
    have hnd := (book_inv_replay es).nodup
    have := List.inj_on_of_nodup_map hnd hq h rfl
    exact hqp (by simpa using this)

/-- C5: erase(time_stamp, id) of an identifier that is not resting leaves both views of the
book and get_highest_price as they were, in every state and for every timestamp. -/
theorem erase_unknown_keeps_book (s : OrderBook) (t : Nat) (i : Int) (h : s.not_resting i) :
    (s.erase t i).orders = s.orders ∧
    (s.erase t i).get_highest_price = s.get_highest_price := by
  have ho : (s.erase t i).orders = s.orders := by
    rw [erase_orders]
    exact container_erase_unknown _ i h
  exact ⟨ho, get_highest_price_congr _ _ ho⟩

/-- Witness of C4: order 1 rests at 10; inserting identifier 1 again at price 99 changes
nothing. -/
theorem duplicate_insert_keeps_book_witness :
    (replay log_two_resting).resting 1 10 ∧
    ((replay log_two_resting).insert 7 1 99).orders = (replay log_two_resting).orders ∧
    ((replay log_two_resting).insert 7 1 99).resting 1 10 ∧
    ((99 : ℚ) ≠ 10 → ¬ ((replay log_two_resting).insert 7 1 99).resting 1 99) ∧
    ((replay log_two_resting).insert 7 1 99).get_highest_price =
      (replay log_two_resting).get_highest_price :=
  ⟨by unfold OrderBook.resting; decide,
    duplicate_insert_keeps_book log_two_resting 7 1 10 99
      (by unfold OrderBook.resting; decide)⟩

/-- Witness of C5: identifier 3 is not resting in a book holding orders 1 and 2. -/
theorem erase_unknown_keeps_book_witness :
    (replay log_two_resting).not_resting 3 ∧
    ((replay log_two_resting).erase 9 3).orders = (replay log_two_resting).orders ∧
    ((replay log_two_resting).erase 9 3).get_highest_price =
      (replay log_two_resting).get_highest_price :=
  ⟨by unfold OrderBook.not_resting; decide,
    erase_unknown_keeps_book (replay log_two_resting) 9 3
      (by unfold OrderBook.not_resting; decide)⟩

/-! ## Erase of an unknown identifier and the statistic -/

/-- C6, counterexample: order 1 rests at price 10 since time 0 and identifier 2 is not
resting; erase(5, 2) moves total_nonempty_time from 0 to 5, timeweighted_maxprice_sum from 0
to 50 and the average from the sentinel to 10. -/
theorem erase_unknown_changes_stats :
    (replay log_one_resting).not_resting 2 ∧
    (replay log_one_resting).total_nonempty_time = 0 ∧
    ((replay log_one_resting).erase 5 2).total_nonempty_time = 5 ∧
    (replay log_one_resting).timeweighted_maxprice_sum = some 0 ∧
    ((replay log_one_resting).erase 5 2).timeweighted_maxprice_sum = some 50 ∧
    (replay log_one_resting).get_time_average_of_maxprices = dNaN ∧
    ((replay log_one_resting).erase 5 2).get_time_average_of_maxprices = some 10 := by
  refine ⟨by unfold OrderBook.not_resting; decide, by decide, by decide, by decide, ?_,
    by decide, ?_⟩
  · simp [log_one_resting, replay, OrderBook.apply, OrderBook.insert, OrderBook.erase,
      OrderBook.update_stats, OrderBook.fresh, orderbook_data.empty, orderbook_data.insert,
      orderbook_data.find, view1_insert, OrderBook.get_highest_price, time_interval,
      UINT64_SIZE, double.add, double.mul, double.ofUInt64]
    norm_num
  · simp [log_one_resting, replay, OrderBook.apply, OrderBook.insert, OrderBook.erase,
      OrderBook.update_stats, OrderBook.fresh, orderbook_data.empty, orderbook_data.insert,
      orderbook_data.find, view1_insert, OrderBook.get_highest_price, time_interval,
      UINT64_SIZE, double.add, double.mul, double.ofUInt64, double.div,
      OrderBook.get_time_average_of_maxprices]

theorem erase_unknown_eq_update_stats (s : OrderBook) (t : Nat) (i : Int)
    (h : s.not_resting i) : s.erase t i = s.update_stats t := by
  unfold OrderBook.erase
  have hu := update_stats_orders s t
  have he : (s.update_stats t).orders.erase i = (s.update_stats t).orders := by
    apply container_erase_unknown
    rw [hu]
    exact h
  simp only [he]

theorem average_congr (s s1 : OrderBook) (h1 : s1.total_nonempty_time = s.total_nonempty_time)
    (h2 : s1.timeweighted_maxprice_sum = s.timeweighted_maxprice_sum) :
    s1.get_time_average_of_maxprices = s.get_time_average_of_maxprices := by
  unfold OrderBook.get_time_average_of_maxprices
  rw [h1, h2]

/-- C6, amended: erase(time_stamp, id) of an identifier that is not resting does exactly what
update_stats(time_stamp) alone does.  The two accumulators and the average are unchanged when
the book is empty or time_stamp equals current_timestamp; when the book is non-empty and
time_stamp is later, the call closes the interval since current_timestamp, adding its length
to total_nonempty_time and its length times get_highest_price to the sum. -/
theorem erase_unknown_stats (s : OrderBook) (t : Nat) (i : Int) (h : s.not_resting i) :
    s.erase t i = s.update_stats t ∧
    (s.orders.view0 = [] ∨ t = s.current_timestamp →
      (s.erase t i).total_nonempty_time = s.total_nonempty_time ∧
      (s.erase t i).timeweighted_maxprice_sum = s.timeweighted_maxprice_sum ∧
      (s.erase t i).get_time_average_of_maxprices = s.get_time_average_of_maxprices) ∧
    (s.orders.view0 ≠ [] → s.current_timestamp < t → t < UINT64_SIZE →
      (s.erase t i).total_nonempty_time =
        (s.total_nonempty_time + (t - s.current_timestamp)) % UINT64_SIZE ∧
      (s.erase t i).timeweighted_maxprice_sum =
        double.add s.timeweighted_maxprice_sum
          (double.mul (double.ofUInt64 (t - s.current_timestamp)) s.get_highest_price)) := by
  have he := erase_unknown_eq_update_stats s t i h
  refine ⟨he, ?_, ?_⟩
  · intro hcase
    have hu : s.update_stats t = { s with current_timestamp := t } := by
      rcases hcase with h0 | h0
      · exact update_stats_empty s t h0
      · exact update_stats_zero s t (by rw [h0]; exact time_interval_self _)
    rw [he, hu]
    exact ⟨rfl, rfl, average_congr _ _ rfl rfl⟩
  · intro hne hlt ht
    have hti := time_interval_of_le t s.current_timestamp (Nat.le_of_lt hlt) ht
    rw [he, update_stats_accrue s t hne (by rw [hti]; omega), hti]
    exact ⟨rfl, rfl⟩

/-- Witness of C6 as amended: identifier 2 is not resting in the book holding order 1, and
erase(5, 2) acts as update_stats(5). -/
theorem erase_unknown_stats_witness :
    (replay log_one_resting).not_resting 2 ∧
    ((replay log_one_resting).erase 5 2 = (replay log_one_resting).update_stats 5 ∧
    ((replay log_one_resting).orders.view0 = [] ∨ 5 = (replay log_one_resting).current_timestamp →
      ((replay log_one_resting).erase 5 2).total_nonempty_time =
        (replay log_one_resting).total_nonempty_time ∧
      ((replay log_one_resting).erase 5 2).timeweighted_maxprice_sum =
        (replay log_one_resting).timeweighted_maxprice_sum ∧
      ((replay log_one_resting).erase 5 2).get_time_average_of_maxprices =
        (replay log_one_resting).get_time_average_of_maxprices) ∧
    ((replay log_one_resting).orders.view0 ≠ [] →
      (replay log_one_resting).current_timestamp < 5 → 5 < UINT64_SIZE →
      ((replay log_one_resting).erase 5 2).total_nonempty_time =
        ((replay log_one_resting).total_nonempty_time +
          (5 - (replay log_one_resting).current_timestamp)) % UINT64_SIZE ∧
      ((replay log_one_resting).erase 5 2).timeweighted_maxprice_sum =
        double.add (replay log_one_resting).timeweighted_maxprice_sum
          (double.mul (double.ofUInt64 (5 - (replay log_one_resting).current_timestamp))
            (replay log_one_resting).get_highest_price))) :=
  ⟨by unfold OrderBook.not_resting; decide,
    erase_unknown_stats (replay log_one_resting) 5 2
      (by unfold OrderBook.not_resting; decide)⟩

/-! ## Insert and erase at one timestamp -/

theorem view1_insert_erase (o : order) (l : List order) (h : o ∉ l) :
    (view1_insert o l).erase o = l := by
  induction l with
  | nil => simp [view1_insert]
  | cons x xs ih =>
    have hx : x ≠ o := fun hxo => h (hxo ▸ List.mem_cons_self _ _)
    have hxs : o ∉ xs := fun hm => h (List.mem_cons_of_mem _ hm)
    unfold view1_insert
    split
    · simp
    · rw [List.erase_cons_tail (by simpa using hx), ih hxs]

theorem container_insert_erase (c : orderbook_data) (o : order) (hinv : book_inv c)
    (h : ∀ x ∈ c.view0, x.id ≠ o.id) : (c.insert o).erase o.id = c := by
  have hn := (find_eq_none_iff c o.id).2 h
  have h0 : o ∉ c.view0 := fun hm => h o hm rfl
  have h1 : o ∉ c.view1 := fun hm => h0 (hinv.perm.subset hm)
  unfold orderbook_data.insert
  rw [hn]
  unfold orderbook_data.erase orderbook_data.find
  simp only [List.find?_cons_of_pos, beq_self_eq_true, List.erase_cons_head,
    view1_insert_erase o c.view1 h1]

theorem insert_current_timestamp (s : OrderBook) (t : Nat) (i : Int) (p : ℚ) :
    (s.insert t i p).current_timestamp = t := rfl

theorem insert_erase_same_timestamp (s : OrderBook) (t : Nat) (i : Int) (p : ℚ)
    (hinv : book_inv s.orders) (h : s.not_resting i) :
    (s.insert t i p).erase t i = s.update_stats t := by
  have hz : (s.insert t i p).update_stats t = s.insert t i p := by
    rw [update_stats_zero _ _ (by rw [insert_current_timestamp]; exact time_interval_self t)]
    rfl
  unfold OrderBook.erase
  simp only [hz]
  unfold OrderBook.insert
  have hc := container_insert_erase (s.update_stats t).orders { id := i, price := p }
    (by rw [update_stats_orders]; exact hinv) (by rw [update_stats_orders]; exact h)
  simp only at hc ⊢
  rw [hc]

/-- C7: for an identifier that is not resting, in insert(t, id, p) followed at once by
erase(t, id) the new order rests for an interval of length zero, the erase call adds nothing
to total_nonempty_time or timeweighted_maxprice_sum, and the pair leaves the whole state,
accumulator and both views of the book, exactly as the no-op event at timestamp t does: as
update_stats(t) alone, which is also what erase(t, id) alone does. -/
theorem insert_erase_pair_is_noop (es : List Event) (t : Nat) (i : Int) (p : ℚ)
    (h : (replay es).not_resting i) :
    time_interval t ((replay es).insert t i p).current_timestamp = 0 ∧
    (((replay es).insert t i p).erase t i).total_nonempty_time =
      ((replay es).insert t i p).total_nonempty_time ∧
    (((replay es).insert t i p).erase t i).timeweighted_maxprice_sum =
      ((replay es).insert t i p).timeweighted_maxprice_sum ∧
    ((replay es).insert t i p).erase t i = (replay es).update_stats t ∧
    ((replay es).insert t i p).erase t i = (replay es).erase t i ∧
    (((replay es).insert t i p).erase t i).orders = (replay es).orders := by
  have hpair := insert_erase_same_timestamp (replay es) t i p (book_inv_replay es) h
  refine ⟨time_interval_self t, ?_, ?_, hpair, ?_, ?_⟩
  · rw [hpair]; rfl
  · rw [hpair]; rfl
  · rw [hpair, erase_unknown_eq_update_stats _ t i h]
  · rw [hpair, update_stats_orders]

/-- Witness of C7: identifier 3 enters and leaves at time 9 a book holding orders 1 and 2. -/
theorem insert_erase_pair_is_noop_witness :
    (replay log_two_resting).not_resting 3 ∧
    (time_interval 9 ((replay log_two_resting).insert 9 3 50).current_timestamp = 0 ∧
    (((replay log_two_resting).insert 9 3 50).erase 9 3).total_nonempty_time =
      ((replay log_two_resting).insert 9 3 50).total_nonempty_time ∧
    (((replay log_two_resting).insert 9 3 50).erase 9 3).timeweighted_maxprice_sum =
      ((replay log_two_resting).insert 9 3 50).timeweighted_maxprice_sum ∧
    ((replay log_two_resting).insert 9 3 50).erase 9 3 =
      (replay log_two_resting).update_stats 9 ∧
    ((replay log_two_resting).insert 9 3 50).erase 9 3 = (replay log_two_resting).erase 9 3 ∧
    (((replay log_two_resting).insert 9 3 50).erase 9 3).orders =
      (replay log_two_resting).orders) :=
  ⟨by unfold OrderBook.not_resting; decide,
    insert_erase_pair_is_noop log_two_resting 9 3 50
      (by unfold OrderBook.not_resting; decide)⟩

/-! ## When the average has no value -/

/-- C9: replaying insert(0, 1, 10.0), insert(5, 2, 20.0), erase(10, 1), erase(15, 2) on a
fresh book ends with timeweighted_maxprice_sum = 250 and total_nonempty_time = 15, the three
intervals weighing 50, 100 and 100, and get_time_average_of_maxprices returns 250/15. -/
theorem scenario_average :
    (replay (log_scenario.take 2)).timeweighted_maxprice_sum = some 50 ∧
    (replay (log_scenario.take 3)).timeweighted_maxprice_sum = some (50 + 100) ∧
    (replay log_scenario).timeweighted_maxprice_sum = some (50 + 100 + 100) ∧
    (replay log_scenario).timeweighted_maxprice_sum = some 250 ∧
    (replay log_scenario).total_nonempty_time = 15 ∧
    (replay log_scenario).get_time_average_of_maxprices = some (250 / 15) := by
  simp [log_scenario, replay, OrderBook.apply, OrderBook.insert, OrderBook.erase,
    OrderBook.update_stats, OrderBook.fresh, orderbook_data.empty, orderbook_data.insert,
    orderbook_data.erase, orderbook_data.find, view1_insert, OrderBook.get_highest_price,
    time_interval, UINT64_SIZE, double.add, double.mul, double.ofUInt64, double.div,
    OrderBook.get_time_average_of_maxprices]
  norm_num

theorem insert_erase_on_empty (s : OrderBook) (t : Nat) (i : Int) (p : ℚ)
    (h : s.orders = { view0 := [], view1 := [] }) :
    (s.insert t i p).erase t i = { s with current_timestamp := t } := by
  rw [insert_erase_same_timestamp s t i p (by rw [h]; exact book_inv_empty)
    (by unfold OrderBook.not_resting; rw [h]; simp)]
  exact update_stats_empty s t (by rw [h])

theorem foldl_pair_events (ps : List (Nat × Int × ℚ)) (s : OrderBook)
    (h : s.orders = { view0 := [], view1 := [] }) :
    ((pair_events ps).foldl OrderBook.apply s).orders = { view0 := [], view1 := [] } ∧
    ((pair_events ps).foldl OrderBook.apply s).total_nonempty_time = s.total_nonempty_time := by
  induction ps generalizing s with
  | nil => exact ⟨h, rfl⟩
  | cons x ps ih =>
    obtain ⟨t, i, p⟩ := x
    simp only [pair_events, List.foldl_cons, OrderBook.apply]
    rw [insert_erase_on_empty s t i p h]
    exact ih _ h

/-- C10: when a fresh book replays each triple (t_k, id_k, p_k) of a finite sequence as
insert(t_k, id_k, p_k) immediately followed by erase(t_k, id_k), then after every pair both
views of the book are empty, total_nonempty_time is 0 and get_time_average_of_maxprices
returns the no-value sentinel. -/
theorem pairs_keep_book_empty (ps : List (Nat × Int × ℚ)) (k : Nat) :
    (replay (pair_events (ps.take k))).orders = { view0 := [], view1 := [] } ∧
    (replay (pair_events (ps.take k))).orders.empty = true ∧
    (replay (pair_events (ps.take k))).total_nonempty_time = 0 ∧
    (replay (pair_events (ps.take k))).get_time_average_of_maxprices = dNaN := by
  obtain ⟨ho, ht⟩ := foldl_pair_events (ps.take k) OrderBook.fresh rfl
  have ht0 : (replay (pair_events (ps.take k))).total_nonempty_time = 0 := ht
  refine ⟨ho, ?_, ht0, ?_⟩
  · unfold replay
    rw [ho]
    rfl
  · unfold OrderBook.get_time_average_of_maxprices
    rw [ht0]
    rfl

/-! ## A single order that is never erased -/

theorem apply_orders_of_keeps (s : OrderBook) (i : Int) (p : ℚ) (x : Event)
    (hx : keeps_only_order i x)
    (h : s.orders = { view0 := [{ id := i, price := p }], view1 := [{ id := i, price := p }] }) :
    (s.apply x).orders = s.orders := by
  cases x with
  | ins t j q =>
    have hj : j = i := hx
    subst hj
    simp only [OrderBook.apply, insert_orders]
    exact container_insert_resting s.orders { id := j, price := p } q (by rw [h]; simp)
  | del t j =>
    have hj : j ≠ i := hx
    simp only [OrderBook.apply, erase_orders]
    apply container_erase_unknown
    rw [h]
    intro o ho
    rw [List.mem_singleton] at ho
    subst ho
    exact fun hij => hj hij.symm

theorem scan_max_singleton (o : order) : scan_max [o] = some o.price := rfl

/-- While the single order inserted at time 0 is the only one resting and events arrive in
time order, the book has been non-empty for the whole time elapsed and the weighted sum is
that time multiplied by the price. -/
theorem single_order_inv (i : Int) (p : ℚ) (mid : List Event)
    (hmid : ∀ x ∈ mid, keeps_only_order i x)
    (hr : timestamps_in_range (.ins 0 i p :: mid))
    (hs : timestamps_nondecreasing (.ins 0 i p :: mid)) :
    (replay (.ins 0 i p :: mid)).orders =
      { view0 := [{ id := i, price := p }], view1 := [{ id := i, price := p }] } ∧
    (replay (.ins 0 i p :: mid)).total_nonempty_time =
      (replay (.ins 0 i p :: mid)).current_timestamp ∧
    (replay (.ins 0 i p :: mid)).timeweighted_maxprice_sum =
      some (((replay (.ins 0 i p :: mid)).current_timestamp : ℚ) * p) := by
  induction mid using List.reverseRecOn with
  | nil =>
    refine ⟨rfl, rfl, ?_⟩
    simp [replay, OrderBook.apply, OrderBook.insert, OrderBook.update_stats, OrderBook.fresh,
      orderbook_data.empty]
  | append_singleton mid x ih =>
    have hr0 : timestamps_in_range ((.ins 0 i p :: mid) ++ [x]) := by simpa using hr
    have hs0 : timestamps_nondecreasing ((.ins 0 i p :: mid) ++ [x]) := by simpa using hs
    obtain ⟨hr1, hxt⟩ := timestamps_in_range_snoc _ x hr0
    obtain ⟨hs1, hle⟩ := timestamps_nondecreasing_snoc _ x hs0
    obtain ⟨ho, htot, hsum⟩ :=
      ih (fun y hy => hmid y (List.mem_append_left _ hy)) hr1 hs1
    have hcur := current_timestamp_replay_le _ x.time_stamp hle
    have hne : (replay (.ins 0 i p :: mid)).orders.view0 ≠ [] := by rw [ho]; simp
    have hT := update_stats_total _ x.time_stamp hcur hxt (Nat.le_of_eq htot)
    have hS := update_stats_sum _ x.time_stamp hcur hxt (book_inv_replay _) _ hsum
    obtain ⟨hc, ht, hsm⟩ := apply_update_stats (replay (.ins 0 i p :: mid)) x
    have happ : replay (.ins 0 i p :: (mid ++ [x])) = (replay (.ins 0 i p :: mid)).apply x := by
      rw [← List.cons_append, replay_snoc]
    rw [happ, hc, ht, hsm, hT, hS, if_pos hne,
      apply_orders_of_keeps _ i p x (hmid x (by simp)) ho]
    refine ⟨ho, ?_, ?_⟩
    · rw [htot]; omega
    · rw [ho, scan_max_singleton]
      simp only [Option.some.injEq]
      rw [Nat.cast_sub hcur]
      ring

theorem nondecreasing_le_last (es : List Event) (e : Event)
    (hs : timestamps_nondecreasing (es ++ [e])) (b : Nat) (he : e.time_stamp = b)
    (hb : b < UINT64_SIZE) : timestamps_in_range (es ++ [e]) := by
  obtain ⟨_, hle⟩ := timestamps_nondecreasing_snoc es e hs
  intro x hx
  rcases List.mem_append.1 hx with hx | hx
  · exact lt_of_le_of_lt (he ▸ hle x hx) hb
  · rw [List.mem_singleton] at hx
    subst hx
    rw [he]
    exact hb

/-- C11, amended: with prices and the running sum taken as exact numbers, in a session on a
fresh book whose only order is inserted by insert(0, id, p) and never erased (the calls in
between are erases of other identifiers or rejected duplicate inserts of id, in time order),
the average read after a further insert or erase call at timestamp 100 is exactly p, whatever
that call is; read right after the insert alone, with no later call, it is the no-value
sentinel. -/
theorem single_order_average (i : Int) (p : ℚ) (mid : List Event) (e : Event)
    (hmid : ∀ x ∈ mid, keeps_only_order i x)
    (hs : timestamps_nondecreasing (.ins 0 i p :: (mid ++ [e])))
    (he : e.time_stamp = 100) :
    (replay (.ins 0 i p :: (mid ++ [e]))).get_time_average_of_maxprices = some p ∧
    (replay [.ins 0 i p]).get_time_average_of_maxprices = dNaN := by
  constructor
  · have hs0 : timestamps_nondecreasing ((.ins 0 i p :: mid) ++ [e]) := by simpa using hs
    have hr0 := nondecreasing_le_last _ e hs0 100 he (by unfold UINT64_SIZE; omega)
    obtain ⟨hr1, hxt⟩ := timestamps_in_range_snoc _ e hr0
    obtain ⟨hs1, hle⟩ := timestamps_nondecreasing_snoc _ e hs0
    obtain ⟨ho, htot, hsum⟩ := single_order_inv i p mid hmid hr1 hs1
    have hcur := current_timestamp_replay_le _ e.time_stamp hle
    have hne : (replay (.ins 0 i p :: mid)).orders.view0 ≠ [] := by rw [ho]; simp
    have hT := update_stats_total _ e.time_stamp hcur hxt (Nat.le_of_eq htot)
    have hS := update_stats_sum _ e.time_stamp hcur hxt (book_inv_replay _) _ hsum
    obtain ⟨_, ht, hsm⟩ := apply_update_stats (replay (.ins 0 i p :: mid)) e
    have happ : replay (.ins 0 i p :: (mid ++ [e])) = (replay (.ins 0 i p :: mid)).apply e := by
      rw [← List.cons_append, replay_snoc]
    rw [he] at hcur hT hS ht hsm
    have htot100 : ((replay (.ins 0 i p :: mid)).apply e).total_nonempty_time = 100 := by
      rw [ht, hT, if_pos hne, htot]; omega
    have hsum100 : ((replay (.ins 0 i p :: mid)).apply e).timeweighted_maxprice_sum =
        some (100 * p) := by
      rw [hsm, hS, ho, scan_max_singleton]
      simp only [Option.some.injEq]
      rw [Nat.cast_sub hcur]
      push_cast
      ring
    rw [happ]
    unfold OrderBook.get_time_average_of_maxprices
    rw [htot100, hsum100]
    simp [double.div, double.ofUInt64]
  · rfl

/-- Witness of C11: order 4 at price 7/2, two calls in between that leave it alone, and an
erase of the unknown identifier 5 at time 100. -/
theorem single_order_average_witness :
    (∀ x ∈ log_single_order_middle, keeps_only_order 4 x) ∧
    timestamps_nondecreasing (.ins 0 4 (7 / 2) :: (log_single_order_middle ++ [.del 100 5])) ∧
    (Event.del 100 5).time_stamp = 100 ∧
    (replay (.ins 0 4 (7 / 2) ::
      (log_single_order_middle ++ [.del 100 5]))).get_time_average_of_maxprices = some (7 / 2) ∧
    (replay [.ins 0 4 (7 / 2)]).get_time_average_of_maxprices = dNaN :=
  ⟨by simp [log_single_order_middle, keeps_only_order],
    by simp [timestamps_nondecreasing, log_single_order_middle, Event.time_stamp],
    rfl,
    single_order_average 4 (7 / 2) log_single_order_middle (.del 100 5)
      (by simp [log_single_order_middle, keeps_only_order])
      (by simp [timestamps_nondecreasing, log_single_order_middle, Event.time_stamp])
      rfl⟩

/-! ## The two views -/

theorem nodup_of_nodup_ids (l : List order) (h : (l.map order.id).Nodup) : l.Nodup :=
  List.Nodup.of_map _ h

theorem find_eq_some_of_mem (c : orderbook_data) (o : order) (hnd : (c.view0.map order.id).Nodup)
    (h : o ∈ c.view0) : c.find o.id = some o := by
  cases hf : c.find o.id with
  | none => exact absurd hf (find_ne_none_of_mem c o h)
  | some x =>
    obtain ⟨hx, hid⟩ := find_eq_some c o.id x hf
    rw [List.inj_on_of_nodup_map hnd hx h hid]

/-- C12: in every state reached from a fresh book by insert and erase calls, the identifier
view and the price-ordered view hold exactly the same orders, each exactly once (an order is
found under its identifier if and only if it is in the price-ordered view), and no two resting
orders share an identifier. -/
theorem views_agree (es : List Event) :
    (replay es).orders.view1.Perm (replay es).orders.view0 ∧
    (∀ o, o ∈ (replay es).orders.view0 ↔ o ∈ (replay es).orders.view1) ∧
    (∀ o, (replay es).orders.find o.id = some o ↔ o ∈ (replay es).orders.view1) ∧
    (∀ o ∈ (replay es).orders.view0, (replay es).orders.view1.count o = 1) ∧
    (∀ o ∈ (replay es).orders.view1, (replay es).orders.view0.count o = 1) ∧
    (∀ a ∈ (replay es).orders.view0, ∀ b ∈ (replay es).orders.view0, a.id = b.id → a = b) := by
  have hinv := book_inv_replay es
  have hnd0 : (replay es).orders.view0.Nodup := nodup_of_nodup_ids _ hinv.nodup
  have hnd1 : (replay es).orders.view1.Nodup := hinv.perm.symm.nodup_iff.1 hnd0
  refine ⟨hinv.perm, fun o => hinv.perm.mem_iff.symm, fun o => ?_, ?_, ?_, ?_⟩
  · constructor
    · intro hf
      have hmem : o ∈ (replay es).orders.view0 := (find_eq_some _ _ _ hf).1
      exact hinv.perm.symm.subset hmem
    · intro hm
      exact find_eq_some_of_mem _ o hinv.nodup (hinv.perm.subset hm)
  · intro o ho
    exact List.count_eq_one_of_mem hnd1 (hinv.perm.symm.subset ho)
  · intro o ho
    exact List.count_eq_one_of_mem hnd0 (hinv.perm.subset ho)
  · intro a ha b hb hab
    exact List.inj_on_of_nodup_map hinv.nodup ha hb hab

/-! ## Timestamps that go backwards -/

theorem time_interval_of_gt (t c : Nat) (h1 : t < c) (h2 : c < UINT64_SIZE) :
    time_interval t c = UINT64_SIZE - (c - t) ∧ 0 < time_interval t c := by
  unfold time_interval
  have h : t + UINT64_SIZE - c = UINT64_SIZE - (c - t) := by omega
  rw [h, Nat.mod_eq_of_lt (by omega)]
  exact ⟨rfl, by omega⟩

theorem current_timestamp_replay_lt (es : List Event) (hr : timestamps_in_range es) :
    (replay es).current_timestamp < UINT64_SIZE := by
  induction es using List.reverseRecOn with
  | nil => simp [replay_nil, OrderBook.fresh, UINT64_SIZE]
  | append_singleton es e _ =>
    rw [replay_snoc, (apply_update_stats _ e).1]
    exact hr e (by simp)

/-- C13, counterexample: order 1 rests at price 10 since time 1; insert(0, 2, 20), a call
with a timestamp smaller than current_timestamp, moves total_nonempty_time from 0 to
2^64 - 1 and timeweighted_maxprice_sum from 0 to (2^64 - 1) * 10. -/
theorem backward_timestamp_accrues :
    (replay log_late_start).orders.view0 ≠ [] ∧
    0 < (replay log_late_start).current_timestamp ∧
    (replay log_late_start).total_nonempty_time = 0 ∧
    ((replay log_late_start).insert 0 2 20).total_nonempty_time = 18446744073709551615 ∧
    (replay log_late_start).timeweighted_maxprice_sum = some 0 ∧
    ((replay log_late_start).insert 0 2 20).timeweighted_maxprice_sum =
      some 184467440737095516150 := by
  refine ⟨by decide, by decide, by decide, by decide, by decide, ?_⟩
  simp [log_late_start, replay, OrderBook.apply, OrderBook.insert, OrderBook.update_stats,
    OrderBook.fresh, orderbook_data.empty, orderbook_data.insert, orderbook_data.find,
    view1_insert, OrderBook.get_highest_price, time_interval, UINT64_SIZE, double.add,
    double.mul, double.ofUInt64]
  norm_num

/-- C13, amended: in a state with a non-empty book, an insert or erase call whose timestamp t
is smaller than current_timestamp is not clamped.  The elapsed duration is the uint64_t
difference, which wraps to 2^64 - (current_timestamp - t) and is positive; the call adds it
to total_nonempty_time (modulo 2^64), adds it times the highest resting price to
timeweighted_maxprice_sum, and sets current_timestamp to t. -/
theorem backward_timestamp_wraps (es : List Event) (e : Event) (hr : timestamps_in_range es)
    (hne : (replay es).orders.view0 ≠ [])
    (hlt : e.time_stamp < (replay es).current_timestamp) :
    time_interval e.time_stamp (replay es).current_timestamp =
      UINT64_SIZE - ((replay es).current_timestamp - e.time_stamp) ∧
    0 < time_interval e.time_stamp (replay es).current_timestamp ∧
    ((replay es).apply e).current_timestamp = e.time_stamp ∧
    ((replay es).apply e).total_nonempty_time =
      ((replay es).total_nonempty_time +
        (UINT64_SIZE - ((replay es).current_timestamp - e.time_stamp))) % UINT64_SIZE ∧
    ∃ m a, (replay es).get_highest_price = some m ∧
      (replay es).timeweighted_maxprice_sum = some a ∧
      ((replay es).apply e).timeweighted_maxprice_sum =
        some (a + ((UINT64_SIZE - ((replay es).current_timestamp - e.time_stamp) : Nat) : ℚ)
          * m) := by
  obtain ⟨hti, hpos⟩ := time_interval_of_gt e.time_stamp _ hlt (current_timestamp_replay_lt es hr)
  obtain ⟨a, ha⟩ := sum_replay_isSome es
  have hmax := get_highest_price_eq_scan _ (book_inv_replay es)
  obtain ⟨hc, htot, hsum⟩ := apply_update_stats (replay es) e
  have hacc := update_stats_accrue (replay es) e.time_stamp hne hpos
  refine ⟨hti, hpos, hc, ?_, ?_⟩
  · rw [htot, hacc]
    simp only [hti]
  · cases hm : scan_max (replay es).orders.view0 with
    | none => exact absurd ((scan_max_eq_none_iff _).1 hm) hne
    | some m =>
      refine ⟨m, a, by rw [hmax, hm], ha, ?_⟩
      rw [hsum, hacc]
      simp only [hti, hmax, hm, ha, double.ofUInt64, double.mul, double.add]

/-- Witness of C13 as amended: the call erase(0, 1) on the book holding order 1 since
time 1. -/
theorem backward_timestamp_wraps_witness :
    timestamps_in_range log_late_start ∧ (replay log_late_start).orders.view0 ≠ [] ∧
    (Event.del 0 1).time_stamp < (replay log_late_start).current_timestamp ∧
    (time_interval (Event.del 0 1).time_stamp (replay log_late_start).current_timestamp =
      UINT64_SIZE - ((replay log_late_start).current_timestamp - (Event.del 0 1).time_stamp) ∧
    0 < time_interval (Event.del 0 1).time_stamp (replay log_late_start).current_timestamp ∧
    ((replay log_late_start).apply (.del 0 1)).current_timestamp = (Event.del 0 1).time_stamp ∧
    ((replay log_late_start).apply (.del 0 1)).total_nonempty_time =
      ((replay log_late_start).total_nonempty_time +
        (UINT64_SIZE - ((replay log_late_start).current_timestamp -
          (Event.del 0 1).time_stamp))) % UINT64_SIZE ∧
    ∃ m a, (replay log_late_start).get_highest_price = some m ∧
      (replay log_late_start).timeweighted_maxprice_sum = some a ∧
      ((replay log_late_start).apply (.del 0 1)).timeweighted_maxprice_sum =
        some (a + ((UINT64_SIZE - ((replay log_late_start).current_timestamp -
          (Event.del 0 1).time_stamp) : Nat) : ℚ) * m)) :=
  ⟨by unfold timestamps_in_range; decide, by decide, by decide,
    backward_timestamp_wraps log_late_start (.del 0 1) (by unfold timestamps_in_range; decide)
      (by decide) (by decide)⟩

/-! ## Calls on an empty book -/

/-- C14: on a state whose book is empty, an insert or erase call at any timestamp t adds
nothing to total_nonempty_time or timeweighted_maxprice_sum and sets current_timestamp to t;
in particular the first call on a fresh book, whose current_timestamp is still 0, accrues no
interval from 0 to t. -/
theorem empty_book_accrues_nothing (s : OrderBook) (e : Event) (h : s.orders.empty = true) :
    (s.apply e).total_nonempty_time = s.total_nonempty_time ∧
    (s.apply e).timeweighted_maxprice_sum = s.timeweighted_maxprice_sum ∧
    (s.apply e).current_timestamp = e.time_stamp ∧
    OrderBook.fresh.orders.empty = true ∧ OrderBook.fresh.current_timestamp = 0 ∧
    (replay [e]).total_nonempty_time = 0 ∧
    (replay [e]).timeweighted_maxprice_sum = some 0 ∧
    (replay [e]).current_timestamp = e.time_stamp := by
  have step : ∀ s0 : OrderBook, s0.orders.empty = true →
      (s0.apply e).total_nonempty_time = s0.total_nonempty_time ∧
      (s0.apply e).timeweighted_maxprice_sum = s0.timeweighted_maxprice_sum ∧
      (s0.apply e).current_timestamp = e.time_stamp := by
    intro s0 h0
    have hv : s0.orders.view0 = [] := by
      simpa [orderbook_data.empty] using h0
    obtain ⟨hc, htot, hsum⟩ := apply_update_stats s0 e
    rw [hc, htot, hsum, update_stats_empty s0 _ hv]
    exact ⟨rfl, rfl, rfl⟩
  obtain ⟨h1, h2, h3⟩ := step s h
  obtain ⟨f1, f2, f3⟩ := step OrderBook.fresh rfl
  exact ⟨h1, h2, h3, rfl, rfl, f1, f2, f3⟩

/-- Witness of C14: the book emptied at time 8 after holding an order for 5 time units; an
insert at time 20 leaves the accumulators alone. -/
theorem empty_book_accrues_nothing_witness :
    (replay log_emptied).orders.empty = true ∧
    (((replay log_emptied).apply (.ins 20 2 5)).total_nonempty_time =
      (replay log_emptied).total_nonempty_time ∧
    ((replay log_emptied).apply (.ins 20 2 5)).timeweighted_maxprice_sum =
      (replay log_emptied).timeweighted_maxprice_sum ∧
    ((replay log_emptied).apply (.ins 20 2 5)).current_timestamp =
      (Event.ins 20 2 5).time_stamp ∧
    OrderBook.fresh.orders.empty = true ∧ OrderBook.fresh.current_timestamp = 0 ∧
    (replay [.ins 20 2 5]).total_nonempty_time = 0 ∧
    (replay [.ins 20 2 5]).timeweighted_maxprice_sum = some 0 ∧
    (replay [.ins 20 2 5]).current_timestamp = (Event.ins 20 2 5).time_stamp) :=
  ⟨by decide, empty_book_accrues_nothing (replay log_emptied) (.ins 20 2 5) (by decide)⟩

/-! ## Effect of insert and erase on the resting set -/

/-- C15: when identifier id is not resting, after insert(time_stamp, id, p) the order id
rests with price p in both views, and every other resting order is as before: nothing is
removed and the orders under other identifiers, with their prices, are the same. -/
theorem insert_fresh_adds_order (s : OrderBook) (t : Nat) (i : Int) (p : ℚ)
    (h : s.not_resting i) :
    (s.insert t i p).resting i p ∧
    (s.insert t i p).orders.view0 = { id := i, price := p } :: s.orders.view0 ∧
    (s.insert t i p).orders.view1.Perm ({ id := i, price := p } :: s.orders.view1) ∧
    (∀ j q, j ≠ i → ((s.insert t i p).resting j q ↔ s.resting j q)) ∧
    (∀ o ∈ s.orders.view0, o ∈ (s.insert t i p).orders.view0) ∧
    (∀ o ∈ s.orders.view1, o ∈ (s.insert t i p).orders.view1) := by
  have hn : s.orders.find i = none := (find_eq_none_iff s.orders i).2 h
  have ho : (s.insert t i p).orders =
      { view0 := { id := i, price := p } :: s.orders.view0
        view1 := view1_insert { id := i, price := p } s.orders.view1 } := by
    rw [insert_orders]
    unfold orderbook_data.insert
    simp only [hn]
  have hperm := view1_insert_perm { id := i, price := p } s.orders.view1
  refine ⟨?_, ?_, ?_, ?_, ?_, ?_⟩
  · unfold OrderBook.resting
    rw [ho]
    exact List.mem_cons_self _ _
  · rw [ho]
  · rw [ho]
    exact hperm
  · intro j q hj
    unfold OrderBook.resting
    rw [ho]
    simp only [List.mem_cons, order.mk.injEq]
    constructor
    · rintro (⟨hji, _⟩ | hm)
      · exact absurd hji hj
      · exact hm
    · exact fun hm => Or.inr hm
  · intro o hm
    rw [ho]
    exact List.mem_cons_of_mem _ hm
  · intro o hm
    rw [ho]
    exact hperm.symm.subset (List.mem_cons_of_mem _ hm)

/-- Witness of C15: identifier 3 is not resting in the book holding orders 1 and 2. -/
theorem insert_fresh_adds_order_witness :
    (replay log_two_resting).not_resting 3 ∧
    (((replay log_two_resting).insert 9 3 15).resting 3 15 ∧
    ((replay log_two_resting).insert 9 3 15).orders.view0 =
      { id := 3, price := 15 } :: (replay log_two_resting).orders.view0 ∧
    ((replay log_two_resting).insert 9 3 15).orders.view1.Perm
      ({ id := 3, price := 15 } :: (replay log_two_resting).orders.view1) ∧
    (∀ j q, j ≠ 3 →
      (((replay log_two_resting).insert 9 3 15).resting j q ↔
        (replay log_two_resting).resting j q)) ∧
    (∀ o ∈ (replay log_two_resting).orders.view0,
      o ∈ ((replay log_two_resting).insert 9 3 15).orders.view0) ∧
    (∀ o ∈ (replay log_two_resting).orders.view1,
      o ∈ ((replay log_two_resting).insert 9 3 15).orders.view1)) :=
  ⟨by unfold OrderBook.not_resting; decide,
    insert_fresh_adds_order (replay log_two_resting) 9 3 15
      (by unfold OrderBook.not_resting; decide)⟩

theorem mem_erase_of_book_inv (l : List order) (o x : order) (hnd : l.Nodup) :
    x ∈ l.erase o ↔ x ∈ l ∧ x ≠ o := by
  rw [List.Nodup.mem_erase_iff hnd]
  exact And.comm

/-- C16: when identifier id is resting, after erase(time_stamp, id) it is no longer resting
and every other resting order is as before in both views (same identifiers, same prices,
none added, none removed); and an erase right after the insert of an identifier that was not
resting gives back both views as they were before the insert. -/
theorem erase_resting_removes_order (es : List Event) (t : Nat) (i : Int) (p : ℚ)
    (h : (replay es).resting i p) :
    ((replay es).erase t i).not_resting i ∧
    (∀ j q, j ≠ i → (((replay es).erase t i).resting j q ↔ (replay es).resting j q)) ∧
    (∀ o, o ∈ ((replay es).erase t i).orders.view0 ↔
      o ∈ (replay es).orders.view0 ∧ o.id ≠ i) ∧
    (∀ o, o ∈ ((replay es).erase t i).orders.view1 ↔
      o ∈ (replay es).orders.view1 ∧ o.id ≠ i) ∧
    (∀ (j : Int) (q : ℚ) (t1 t2 : Nat), (replay es).not_resting j →
      (((replay es).insert t1 j q).erase t2 j).orders = (replay es).orders) := by
  have hinv := book_inv_replay es
  have hnd0 : (replay es).orders.view0.Nodup := nodup_of_nodup_ids _ hinv.nodup
  have hnd1 : (replay es).orders.view1.Nodup := hinv.perm.symm.nodup_iff.1 hnd0
  have hfind := find_eq_some_of_mem (replay es).orders { id := i, price := p } hinv.nodup h
  have ho : ((replay es).erase t i).orders =
      { view0 := (replay es).orders.view0.erase { id := i, price := p }
        view1 := (replay es).orders.view1.erase { id := i, price := p } } := by
    rw [erase_orders]
    unfold orderbook_data.erase
    simp only [hfind]
  have hid : ∀ o ∈ (replay es).orders.view0, (o ≠ { id := i, price := p } ↔ o.id ≠ i) := by
    intro o hm
    constructor
    · intro hne hoi
      exact hne (List.inj_on_of_nodup_map hinv.nodup hm h hoi)
    · intro hne heq
      exact hne (by rw [heq])
  have hv0 : ∀ o, o ∈ ((replay es).erase t i).orders.view0 ↔
      o ∈ (replay es).orders.view0 ∧ o.id ≠ i := by
    intro o
    rw [ho, mem_erase_of_book_inv _ _ _ hnd0]
    exact and_congr_right (fun hm => hid o hm)
  refine ⟨?_, ?_, hv0, ?_, ?_⟩
  · intro o hm
    exact ((hv0 o).1 hm).2
  · intro j q hj
    unfold OrderBook.resting
    rw [hv0]
    exact and_iff_left hj
  · intro o
    rw [ho, mem_erase_of_book_inv _ _ _ hnd1]
    exact and_congr_right (fun hm => hid o (hinv.perm.subset hm))
  · intro j q t1 t2 hj
    rw [erase_orders, insert_orders]
    exact container_insert_erase (replay es).orders { id := j, price := q } hinv hj

/-- Witness of C16: order 1 rests at price 10 in the book holding orders 1 and 2. -/
theorem erase_resting_removes_order_witness :
    (replay log_two_resting).resting 1 10 ∧
    (((replay log_two_resting).erase 9 1).not_resting 1 ∧
    (∀ j q, j ≠ 1 →
      (((replay log_two_resting).erase 9 1).resting j q ↔
        (replay log_two_resting).resting j q)) ∧
    (∀ o, o ∈ ((replay log_two_resting).erase 9 1).orders.view0 ↔
      o ∈ (replay log_two_resting).orders.view0 ∧ o.id ≠ 1) ∧
    (∀ o, o ∈ ((replay log_two_resting).erase 9 1).orders.view1 ↔
      o ∈ (replay log_two_resting).orders.view1 ∧ o.id ≠ 1) ∧
    (∀ (j : Int) (q : ℚ) (t1 t2 : Nat), (replay log_two_resting).not_resting j →
      (((replay log_two_resting).insert t1 j q).erase t2 j).orders =
        (replay log_two_resting).orders)) :=
  ⟨by unfold OrderBook.resting; decide,
    erase_resting_removes_order log_two_resting 9 1 10 (by unfold OrderBook.resting; decide)⟩

/-! ## No wrap-around on time-ordered logs -/

/-- C17: in every state reached from a fresh book by calls with non-decreasing uint64_t
timestamps, current_timestamp is the timestamp of the last call and total_nonempty_time is
at most current_timestamp.  Hence for the next call of such a log the subtraction
new_timestamp - current_timestamp does not wrap (it is the exact difference of two ordered
numbers) and adding it to total_nonempty_time stays below 2^64. -/
theorem timestamps_never_wrap (es : List Event) (hr : timestamps_in_range es)
    (hs : timestamps_nondecreasing es) :
    (es ≠ [] → (replay es).current_timestamp = time_at es (es.length - 1)) ∧
    (replay es).total_nonempty_time ≤ (replay es).current_timestamp ∧
    (replay es).current_timestamp < UINT64_SIZE ∧
    (replay es).total_nonempty_time < UINT64_SIZE ∧
    ∀ e : Event, timestamps_in_range (es ++ [e]) → timestamps_nondecreasing (es ++ [e]) →
      (replay es).current_timestamp ≤ e.time_stamp ∧
      time_interval e.time_stamp (replay es).current_timestamp =
        e.time_stamp - (replay es).current_timestamp ∧
      (replay es).total_nonempty_time +
        time_interval e.time_stamp (replay es).current_timestamp < UINT64_SIZE ∧
      (replay (es ++ [e])).total_nonempty_time ≤ (replay es).total_nonempty_time +
        time_interval e.time_stamp (replay es).current_timestamp := by
  obtain ⟨_, _, hb, hc⟩ := stats_replay es hr hs
  refine ⟨fun hne => ?_, hb, hc, lt_of_le_of_lt hb hc, ?_⟩
  · rw [current_timestamp_replay, if_neg hne]
  · intro e hre hse
    obtain ⟨_, het⟩ := timestamps_in_range_snoc es e hre
    obtain ⟨_, hle⟩ := timestamps_nondecreasing_snoc es e hse
    have hcur := current_timestamp_replay_le es e.time_stamp hle
    have hti := time_interval_of_le e.time_stamp _ hcur het
    have hT := update_stats_total (replay es) e.time_stamp hcur het hb
    refine ⟨hcur, hti, by rw [hti]; omega, ?_⟩
    rw [replay_snoc, (apply_update_stats _ e).2.1, hT, hti]
    split <;> omega

/-- Witness of C17 on the log of five events. -/
theorem timestamps_never_wrap_witness :
    timestamps_in_range log_with_duplicate ∧ timestamps_nondecreasing log_with_duplicate ∧
    ((log_with_duplicate ≠ [] →
      (replay log_with_duplicate).current_timestamp =
        time_at log_with_duplicate (log_with_duplicate.length - 1)) ∧
    (replay log_with_duplicate).total_nonempty_time ≤
      (replay log_with_duplicate).current_timestamp ∧
    (replay log_with_duplicate).current_timestamp < UINT64_SIZE ∧
    (replay log_with_duplicate).total_nonempty_time < UINT64_SIZE ∧
    ∀ e : Event, timestamps_in_range (log_with_duplicate ++ [e]) →
      timestamps_nondecreasing (log_with_duplicate ++ [e]) →
      (replay log_with_duplicate).current_timestamp ≤ e.time_stamp ∧
      time_interval e.time_stamp (replay log_with_duplicate).current_timestamp =
        e.time_stamp - (replay log_with_duplicate).current_timestamp ∧
      (replay log_with_duplicate).total_nonempty_time +
        time_interval e.time_stamp (replay log_with_duplicate).current_timestamp
          < UINT64_SIZE ∧
      (replay (log_with_duplicate ++ [e])).total_nonempty_time ≤
        (replay log_with_duplicate).total_nonempty_time +
          time_interval e.time_stamp (replay log_with_duplicate).current_timestamp) :=
  ⟨by unfold timestamps_in_range; decide, by unfold timestamps_nondecreasing; decide,
    timestamps_never_wrap log_with_duplicate (by unfold timestamps_in_range; decide)
      (by unfold timestamps_nondecreasing; decide)⟩

/-! ## The average lies between the inserted prices -/

theorem insert_prices_snoc (es : List Event) (e : Event) :
    insert_prices (es ++ [e]) = insert_prices es ++ insert_prices [e] := by
  induction es with
  | nil => rfl
  | cons x xs ih =>
    cases x <;> simp [insert_prices, ih]

theorem apply_view0_mem (s : OrderBook) (e : Event) (o : order)
    (h : o ∈ (s.apply e).orders.view0) : o ∈ s.orders.view0 ∨ o.price ∈ insert_prices [e] := by
  cases e with
  | ins t i p =>
    simp only [OrderBook.apply, insert_orders] at h
    unfold orderbook_data.insert at h
    split at h
    · exact Or.inl h
    · rcases List.mem_cons.1 h with rfl | hm
      · exact Or.inr (by simp [insert_prices])
      · exact Or.inl hm
  | del t i =>
    simp only [OrderBook.apply, erase_orders] at h
    unfold orderbook_data.erase at h
    split at h
    · exact Or.inl h
    · exact Or.inl (List.mem_of_mem_erase h)

theorem resting_price_inserted (es : List Event) :
    ∀ o ∈ (replay es).orders.view0, o.price ∈ insert_prices es := by
  induction es using List.reverseRecOn with
  | nil => intro o ho; simp [replay_nil, OrderBook.fresh] at ho
  | append_singleton es e ih =>
    intro o ho
    rw [replay_snoc] at ho
    rw [insert_prices_snoc]
    rcases apply_view0_mem _ e o ho with hm | hm
    · exact List.mem_append_left _ (ih o hm)
    · exact List.mem_append_right _ hm

/-- Between two bounds on every inserted price, the weighted sum stays between the bounds
multiplied by the non-empty time. -/
theorem sum_between_bounds (es : List Event) (hr : timestamps_in_range es)
    (hs : timestamps_nondecreasing es) (lo hi : ℚ)
    (hb : ∀ p ∈ insert_prices es, lo ≤ p ∧ p ≤ hi) :
    ∃ a, (replay es).timeweighted_maxprice_sum = some a ∧
      lo * ((replay es).total_nonempty_time : ℚ) ≤ a ∧
      a ≤ hi * ((replay es).total_nonempty_time : ℚ) := by
  induction es using List.reverseRecOn with
  | nil => exact ⟨0, rfl, by simp [replay_nil, OrderBook.fresh], by simp [replay_nil, OrderBook.fresh]⟩
  | append_singleton es e ih =>
    obtain ⟨hr1, hte⟩ := timestamps_in_range_snoc es e hr
    obtain ⟨hs1, hle⟩ := timestamps_nondecreasing_snoc es e hs
    have hb1 : ∀ p ∈ insert_prices es, lo ≤ p ∧ p ≤ hi := fun p hp =>
      hb p (by rw [insert_prices_snoc]; exact List.mem_append_left _ hp)
    obtain ⟨a, ha, hlo, hhi⟩ := ih hr1 hs1 hb1
    have hbound := (stats_replay es hr1 hs1).2.2.1
    have hcur := current_timestamp_replay_le es e.time_stamp hle
    have hT := update_stats_total (replay es) e.time_stamp hcur hte hbound
    have hS := update_stats_sum (replay es) e.time_stamp hcur hte (book_inv_replay es) a ha
    obtain ⟨_, ht, hsm⟩ := apply_update_stats (replay es) e
    rw [replay_snoc, ht, hsm, hT, hS]
    cases hm : scan_max (replay es).orders.view0 with
    | none =>
      have hnil := (scan_max_eq_none_iff _).1 hm
      refine ⟨a, by simp, ?_, ?_⟩ <;> simpa [hnil] using ‹_›
    | some m =>
      have hne : (replay es).orders.view0 ≠ [] := by
        intro hnil
        rw [hnil] at hm
        simp [scan_max] at hm
      obtain ⟨⟨o, ho, hom⟩, _⟩ := scan_max_spec _ m hm
      have hmb := hb1 m (hom ▸ resting_price_inserted es o ho)
      have hd : (0 : ℚ) ≤ ((e.time_stamp - (replay es).current_timestamp : Nat) : ℚ) :=
        Nat.cast_nonneg _
      have h1 := mul_le_mul_of_nonneg_left hmb.1 hd
      have h2 := mul_le_mul_of_nonneg_left hmb.2 hd
      refine ⟨a + ((e.time_stamp - (replay es).current_timestamp : Nat) : ℚ) * m, rfl, ?_, ?_⟩
      · rw [if_pos hne, Nat.cast_add, mul_add]
        linarith [mul_comm lo ((e.time_stamp - (replay es).current_timestamp : Nat) : ℚ)]
      · rw [if_pos hne, Nat.cast_add, mul_add]
        linarith [mul_comm hi ((e.time_stamp - (replay es).current_timestamp : Nat) : ℚ)]

theorem exists_least (l : List ℚ) (h : l ≠ []) : ∃ x ∈ l, ∀ y ∈ l, x ≤ y := by
  induction l with
  | nil => exact absurd rfl h
  | cons a l ih =>
    by_cases hl : l = []
    · subst hl
      exact ⟨a, by simp, by simp⟩
    · obtain ⟨x, hx, hmin⟩ := ih hl
      rcases le_total a x with hax | hxa
      · refine ⟨a, by simp, fun y hy => ?_⟩
        rcases List.mem_cons.1 hy with rfl | hy
        · exact le_refl _
        · exact le_trans hax (hmin y hy)
      · refine ⟨x, List.mem_cons_of_mem _ hx, fun y hy => ?_⟩
        rcases List.mem_cons.1 hy with rfl | hy
        · exact hxa
        · exact hmin y hy

theorem exists_greatest (l : List ℚ) (h : l ≠ []) : ∃ x ∈ l, ∀ y ∈ l, y ≤ x := by
  induction l with
  | nil => exact absurd rfl h
  | cons a l ih =>
    by_cases hl : l = []
    · subst hl
      exact ⟨a, by simp, by simp⟩
    · obtain ⟨x, hx, hmax⟩ := ih hl
      rcases le_total x a with hxa | hax
      · refine ⟨a, by simp, fun y hy => ?_⟩
        rcases List.mem_cons.1 hy with rfl | hy
        · exact le_refl _
        · exact le_trans (hmax y hy) hxa
      · refine ⟨x, List.mem_cons_of_mem _ hx, fun y hy => ?_⟩
        rcases List.mem_cons.1 hy with rfl | hy
        · exact hax
        · exact hmax y hy

/-- C18: after a log with non-decreasing timestamps that ends with total_nonempty_time > 0,
get_time_average_of_maxprices returns a value that lies between the smallest and the largest
price passed to an insert call of the log. -/
theorem average_between_inserted_prices (es : List Event) (hr : timestamps_in_range es)
    (hs : timestamps_nondecreasing es) (hpos : 0 < (replay es).total_nonempty_time) :
    ∃ v pmin pmax, (replay es).get_time_average_of_maxprices = some v ∧
      pmin ∈ insert_prices es ∧ pmax ∈ insert_prices es ∧
      (∀ p ∈ insert_prices es, pmin ≤ p ∧ p ≤ pmax) ∧
      pmin ≤ v ∧ v ≤ pmax := by
  have hq : (0 : ℚ) < ((replay es).total_nonempty_time : ℚ) := by exact_mod_cast hpos
  have hne : insert_prices es ≠ [] := by
    intro hnil
    obtain ⟨a, _, h1, h2⟩ := sum_between_bounds es hr hs 1 0 (by rw [hnil]; simp)
    linarith
  obtain ⟨pmin, hmin, hleast⟩ := exists_least _ hne
  obtain ⟨pmax, hmax, hgreatest⟩ := exists_greatest _ hne
  obtain ⟨a, ha, h1, h2⟩ := sum_between_bounds es hr hs pmin pmax
    (fun p hp => ⟨hleast p hp, hgreatest p hp⟩)
  refine ⟨a / ((replay es).total_nonempty_time : ℚ), pmin, pmax, ?_, hmin, hmax,
    fun p hp => ⟨hleast p hp, hgreatest p hp⟩, ?_, ?_⟩
  · unfold OrderBook.get_time_average_of_maxprices
    rw [if_pos hpos, ha]
    simp [double.div, double.ofUInt64, hq.ne']
  · rw [le_div_iff₀ hq]
    exact h1
  · rw [div_le_iff₀ hq]
    exact h2

/-- Witness of C18 on the log of five events. -/
theorem average_between_inserted_prices_witness :
    timestamps_in_range log_with_duplicate ∧ timestamps_nondecreasing log_with_duplicate ∧
    0 < (replay log_with_duplicate).total_nonempty_time ∧
    ∃ v pmin pmax, (replay log_with_duplicate).get_time_average_of_maxprices = some v ∧
      pmin ∈ insert_prices log_with_duplicate ∧ pmax ∈ insert_prices log_with_duplicate ∧
      (∀ p ∈ insert_prices log_with_duplicate, pmin ≤ p ∧ p ≤ pmax) ∧
      pmin ≤ v ∧ v ≤ pmax :=
  ⟨by unfold timestamps_in_range; decide, by unfold timestamps_nondecreasing; decide,
    by decide,
    average_between_inserted_prices log_with_duplicate
      (by unfold timestamps_in_range; decide) (by unfold timestamps_nondecreasing; decide)
      (by decide)⟩

/-! ## Splitting an interval -/

theorem double_split (a m : double) (d1 d2 : Nat) :
    double.add (double.add a (double.mul (double.ofUInt64 d1) m))
        (double.mul (double.ofUInt64 d2) m) =
      double.add a (double.mul (double.ofUInt64 (d1 + d2)) m) := by
  cases a <;> cases m <;> simp [double.add, double.mul, double.ofUInt64]
  ring

theorem apply_eq_of_update_stats_eq (s s1 : OrderBook) (e : Event)
    (h : s.update_stats e.time_stamp = s1.update_stats e.time_stamp) :
    s.apply e = s1.apply e := by
  cases e with
  | ins t i p =>
    have h0 : s.update_stats t = s1.update_stats t := h
    simp only [OrderBook.apply, OrderBook.insert, h0]
  | del t i =>
    have h0 : s.update_stats t = s1.update_stats t := h
    simp only [OrderBook.apply, OrderBook.erase, h0]

theorem update_stats_split (s : OrderBook) (t1 t2 : Nat) (h01 : s.current_timestamp ≤ t1)
    (h12 : t1 ≤ t2) (h2 : t2 < UINT64_SIZE) :
    (s.update_stats t1).update_stats t2 = s.update_stats t2 := by
  by_cases hv : s.orders.view0 = []
  · rw [update_stats_empty s t2 hv, update_stats_empty s t1 hv]
    exact update_stats_empty { s with current_timestamp := t1 } t2 hv
  · have hv1 : (s.update_stats t1).orders.view0 ≠ [] := by rw [update_stats_orders]; exact hv
    by_cases h1 : t1 = s.current_timestamp
    · have hs : s.update_stats t1 = s := by
        rw [update_stats_zero s t1 (by rw [h1]; exact time_interval_self _), h1]
      rw [hs]
    · by_cases h2e : t2 = t1
      · rw [h2e, update_stats_zero (s.update_stats t1) t1
          (by rw [update_stats_current_timestamp]; exact time_interval_self _)]
        rfl
      · have hti1 := time_interval_of_le t1 s.current_timestamp h01 (lt_of_le_of_lt h12 h2)
        have hti2 := time_interval_of_le t2 t1 h12 h2
        have hti := time_interval_of_le t2 s.current_timestamp (le_trans h01 h12) h2
        have hg : (s.update_stats t1).get_highest_price = s.get_highest_price :=
          get_highest_price_congr _ _ (update_stats_orders s t1)
        have e1 := update_stats_accrue s t1 hv (by rw [hti1]; omega)
        have e2 := update_stats_accrue (s.update_stats t1) t2 hv1
          (by rw [update_stats_current_timestamp, hti2]; omega)
        have e3 := update_stats_accrue s t2 hv (by rw [hti]; omega)
        rw [e2, e3, hg, update_stats_current_timestamp, update_stats_orders]
        rw [e1]
        simp only [OrderBook.mk.injEq, true_and]
        refine ⟨?_, ?_⟩
        · rw [Nat.mod_add_mod, hti1, hti2, hti]
          congr 1
          omega
        · rw [double_split, hti1, hti2, hti]
          congr 3
          omega

/-- C19: for every state with last timestamp t0, timestamps t0 <= t1 <= t2, an identifier id
that is not resting and an event e (insert or erase) at timestamp t2, applying erase(t1, id)
and then e gives the same state as applying e alone: the same book, total_nonempty_time,
timeweighted_maxprice_sum and current_timestamp. -/
theorem split_interval_same_state (s : OrderBook) (t1 t2 : Nat) (i : Int) (e : Event)
    (h01 : s.current_timestamp ≤ t1) (h12 : t1 ≤ t2) (h2 : t2 < UINT64_SIZE)
    (he : e.time_stamp = t2) (hi : s.not_resting i) :
    (s.erase t1 i).apply e = s.apply e ∧
    ((s.erase t1 i).apply e).orders = (s.apply e).orders ∧
    ((s.erase t1 i).apply e).total_nonempty_time = (s.apply e).total_nonempty_time ∧
    ((s.erase t1 i).apply e).timeweighted_maxprice_sum = (s.apply e).timeweighted_maxprice_sum ∧
    ((s.erase t1 i).apply e).current_timestamp = (s.apply e).current_timestamp := by
  have h : (s.erase t1 i).apply e = s.apply e := by
    rw [erase_unknown_eq_update_stats s t1 i hi]
    apply apply_eq_of_update_stats_eq
    rw [he]
    exact update_stats_split s t1 t2 h01 h12 h2
  exact ⟨h, by rw [h], by rw [h], by rw [h], by rw [h]⟩

/-- Witness of C19: the book holds orders 1 and 2 with last timestamp 5; erase(7, 3) of the
unknown identifier 3 and then erase(12, 2) gives the state of erase(12, 2) alone. -/
theorem split_interval_same_state_witness :
    (replay log_two_resting).current_timestamp ≤ 7 ∧ 7 ≤ 12 ∧ 12 < UINT64_SIZE ∧
    (Event.del 12 2).time_stamp = 12 ∧ (replay log_two_resting).not_resting 3 ∧
    (((replay log_two_resting).erase 7 3).apply (.del 12 2) =
      (replay log_two_resting).apply (.del 12 2) ∧
    (((replay log_two_resting).erase 7 3).apply (.del 12 2)).orders =
      ((replay log_two_resting).apply (.del 12 2)).orders ∧
    (((replay log_two_resting).erase 7 3).apply (.del 12 2)).total_nonempty_time =
      ((replay log_two_resting).apply (.del 12 2)).total_nonempty_time ∧
    (((replay log_two_resting).erase 7 3).apply (.del 12 2)).timeweighted_maxprice_sum =
      ((replay log_two_resting).apply (.del 12 2)).timeweighted_maxprice_sum ∧
    (((replay log_two_resting).erase 7 3).apply (.del 12 2)).current_timestamp =
      ((replay log_two_resting).apply (.del 12 2)).current_timestamp) :=
  ⟨by decide, by decide, by decide, rfl, by unfold OrderBook.not_resting; decide,
    split_interval_same_state (replay log_two_resting) 7 12 3 (.del 12 2) (by decide)
      (by decide) (by decide) rfl (by unfold OrderBook.not_resting; decide)⟩

/-! ## Where binary64 arithmetic departs from exact numbers -/

/-- The scenario of the specification in binary64 arithmetic: the running sum 250 and the
durations are exact, and the average is 250/15 rounded to the nearest double,
16.666666666666668. -/
theorem binary64_scenario :
    (Binary64.replay log_scenario).timeweighted_maxprice_sum = .fin 250 ∧
    (Binary64.replay log_scenario).total_nonempty_time = 15 ∧
    (Binary64.replay log_scenario).get_time_average_of_maxprices =
      .fin (4691249611844267 / 281474976710656) := by
  refine ⟨by decide!, by decide!, by decide!⟩

/-- C11, counterexample: in binary64 arithmetic, with the only order inserted by
insert(0, 1, p) for p the double nearest to 0.007 and the session closed by erase(100, 2),
the running sum is 100 * p rounded, 0.7000000000000001, and the average is that sum divided
by 100 and rounded, 0.007000000000000001: the double next above p, not p.  Over exact numbers
the same session gives p. -/
theorem single_order_average_rounds :
    Binary64.representable price_0007 ∧
    timestamps_nondecreasing log_single_0007 ∧
    (Binary64.replay log_single_0007).orders.view0 = [{ id := 1, price := price_0007 }] ∧
    (Binary64.replay log_single_0007).total_nonempty_time = 100 ∧
    (Binary64.replay log_single_0007).timeweighted_maxprice_sum =
      .fin (6305039478318695 / 9007199254740992) ∧
    (Binary64.replay log_single_0007).get_time_average_of_maxprices =
      .fin (8070450532247930 / 1152921504606846976) ∧
    (Binary64.replay log_single_0007).get_time_average_of_maxprices ≠ .fin price_0007 ∧
    (replay log_single_0007).get_time_average_of_maxprices = some price_0007 := by
  refine ⟨by unfold Binary64.representable; decide!,
    by unfold timestamps_nondecreasing; decide, by decide!, by decide!, by decide!, by decide!,
    by decide!, by decide!⟩

end OrderBookModel
